import Mathlib

/-!
# A verification development of the `netstruct` binary codec

This file embeds the `netstruct` Python module (format compiler, packer and
incremental decoder for fixed-layout records with variable-length strings)
shallowly in Lean and settles the specification claims against it.

Modelling conventions:

* Byte strings are `List Nat`; a genuine byte is below 256, but no invariant
  is imposed — every operation is defined totally, mirroring what the source
  would compute.
* Python values that flow through pack/unpack are `PyVal` (integers, byte
  strings, booleans).  Machine integers are `Int`/`Nat` with explicit
  `% 2 ^ (8 * w)` where wrapping matters.
* The external scalar codec (`struct.Struct`) is embedded for the scalar
  codes `x c b B ? h H i I l L q Q s p P` with standard sizes for the
  `= < > !` byte orders and LP64 x86-64 sizes/alignment for native `@`
  (`l`/`L` are 8 bytes, every integer is aligned to its size).  The float
  codes `f`/`d` are outside this embedding (IEEE-754 semantics are out of
  scope); formats containing them are rejected by the model and outside the
  quantified domains below.
* Exceptions are represented by `PyErr`.  The source raises `struct.error`
  both for grammar problems (message "bad char in struct format" /
  "invalid sequence in netstruct format") and for size problems at
  pack/unpack time ("pack expected N items", "unpack requires a string
  argument of length N"); the two message families are kept apart as
  `PyErr.formatError` and `PyErr.sizeError`.  `TypeError` and `IndexError`
  are `PyErr.typeError` and `PyErr.indexError`.
* Python's generator-based `iter_unpack` is embedded as a step function
  `runPairs` that runs to the next suspension point (`Step.more`), plus a
  resumption function `resumeState` fed with the next chunk, exactly
  mirroring the suspend points of the source generator.
-/

/-- A Python value as handled by `netstruct` pack/unpack. -/
inductive PyVal
  | int (n : Int)
  | bytes (b : List Nat)
  | bool (b : Bool)
deriving DecidableEq, Repr

/-- The exception classes the source can raise.  `formatError` and
`sizeError` are both `struct.error` in the source, distinguished by their
message family (grammar messages vs. size/count messages). -/
inductive PyErr
  | typeError
  | indexError
  | formatError
  | sizeError
deriving DecidableEq, Repr

/-- The argument handed to the `NetStruct` constructor: a byte string, a
text (unicode) string, or some other object (modelled by an integer). -/
inductive PyArg
  | bytes (b : List Nat)
  | text (s : String)
  | int (n : Int)
deriving DecidableEq, Repr

/-- Python truthiness of a constructor argument (`if not format:`). -/
def pyFalsy : PyArg → Bool
  | .bytes b => b.isEmpty
  | .text s => s.isEmpty
  | .int n => n = 0

/-- Whether the argument is a byte string (`isinstance(format, bytes)`). -/
def PyArg.isBytes : PyArg → Bool
  | .bytes _ => true
  | _ => false

/-- Python slice `l[:n]` for a possibly negative `n`. -/
def pyTake {α : Type} (n : Int) (l : List α) : List α :=
  if 0 ≤ n then l.take n.toNat else l.take (l.length - n.natAbs)

/-- Python slice `l[n:]` for a possibly negative `n`. -/
def pyDrop {α : Type} (n : Int) (l : List α) : List α :=
  if 0 ≤ n then l.drop n.toNat else l.drop (l.length - n.natAbs)

/-- Python indexing `l[i]` for a possibly negative `i` (`none` = IndexError). -/
def pyGetV {α : Type} (i : Int) (l : List α) : Option α :=
  if 0 ≤ i then l.get? i.toNat
  else if i.natAbs ≤ l.length then l.get? (l.length - i.natAbs) else none

/-- Little-endian base-256 value of a byte list (first byte least significant). -/
def decodeLE : List Nat → Nat
  | [] => 0
  | b :: bs => b + 256 * decodeLE bs

/-- `w` little-endian base-256 digits of `n`. -/
def natToBytesLE : Nat → Nat → List Nat
  | 0, _ => []
  | w + 1, n => n % 256 :: natToBytesLE w (n / 256)

/-- Integer value of a byte slice in the given byte order. -/
def decodeInt (little : Bool) (bs : List Nat) : Nat :=
  decodeLE (if little then bs else bs.reverse)

/-- Encode `m` (wrapped modulo `2 ^ (8 * w)`, two's complement for negative
values) as `w` bytes in the given byte order. -/
def intEncode (little : Bool) (w : Nat) (m : Int) : List Nat :=
  let u := (m % ((2 : Int) ^ (8 * w))).toNat
  if little then natToBytesLE w u else (natToBytesLE w u).reverse

/-- One compiled scalar field of a `struct` layout.  `pad n` covers both the
`x` code and native alignment padding. -/
inductive SField
  | pad (n : Nat)
  | sint (w : Nat)
  | uint (w : Nat)
  | boolf
  | charf
  | strf (n : Nat)
  | pstrf (n : Nat)
deriving DecidableEq, Repr

/-- The packed byte size of one field. -/
def fieldSize : SField → Nat
  | .pad n => n
  | .sint w => w
  | .uint w => w
  | .boolf => 1
  | .charf => 1
  | .strf n => n
  | .pstrf n => n

/-- The packed byte size of a field list (`struct.Struct.size`). -/
def fieldsSize : List SField → Nat
  | [] => 0
  | f :: fs => fieldSize f + fieldsSize fs

/-- How many Python values a field produces/consumes (pad fields: none). -/
def fieldVals : SField → Nat
  | .pad _ => 0
  | _ => 1

/-- Total number of values a field list produces/consumes. -/
def numVals : List SField → Nat
  | [] => 0
  | f :: fs => fieldVals f + numVals fs

/-- The values produced by unpacking one field from the front of `bs`. -/
def fieldOut (little : Bool) : SField → List Nat → List PyVal
  | .pad _, _ => []
  | .sint w, bs =>
      let u := decodeInt little (bs.take w)
      [.int (if 2 ^ (8 * w - 1) ≤ u then (u : Int) - 2 ^ (8 * w) else (u : Int))]
  | .uint w, bs => [.int (decodeInt little (bs.take w))]
  | .boolf, bs => [.bool (bs.headD 0 ≠ 0)]
  | .charf, bs => [.bytes (bs.take 1)]
  | .strf n, bs => [.bytes (bs.take n)]
  | .pstrf n, bs =>
      let blob := bs.take n
      [.bytes ((blob.drop 1).take (min (blob.headD 0) (n - 1)))]

/-- `struct.unpack` on a field list (the caller supplies an exactly-sized
slice; extra bytes would simply be ignored field by field). -/
def fieldsUnpack (little : Bool) : List SField → List Nat → List PyVal
  | [], _ => []
  | f :: fs, bs => fieldOut little f bs ++ fieldsUnpack little fs (bs.drop (fieldSize f))

/-- The bytes a Pascal-string field writes for value `s`. -/
def pPack (n : Nat) (s : List Nat) : List Nat :=
  if n = 0 then []
  else min s.length (min (n - 1) 255) :: (s.take (n - 1) ++ List.replicate ((n - 1) - s.length) 0)

/-- Python truthiness of a packed value (`PyObject_IsTrue`): zero integers
and empty byte strings are false, everything else is true. -/
def pyTruthy : PyVal → Bool
  | .int n => n ≠ 0
  | .bytes b => !b.isEmpty
  | .bool b => b

/-- `struct.pack` on a field list: consumes exactly the value-consuming
fields' worth of values, checks types and representable ranges, errors
(struct.error) otherwise; the `?` code packs any value whatsoever by its
truth value (CPython packs it through `PyObject_IsTrue`). -/
def fieldsPack (little : Bool) : List SField → List PyVal → Except Unit (List Nat)
  | [], [] => .ok []
  | [], _ :: _ => .error ()
  | .pad n :: fs, vs => (fieldsPack little fs vs).map (fun r => List.replicate n 0 ++ r)
  | .sint w :: fs, .int m :: vs =>
      if -((2 : Int) ^ (8 * w - 1)) ≤ m ∧ m < (2 : Int) ^ (8 * w - 1) then
        (fieldsPack little fs vs).map (fun r => intEncode little w m ++ r)
      else .error ()
  | .uint w :: fs, .int m :: vs =>
      if 0 ≤ m ∧ m < (2 : Int) ^ (8 * w) then
        (fieldsPack little fs vs).map (fun r => intEncode little w m ++ r)
      else .error ()
  | .boolf :: fs, v :: vs =>
      (fieldsPack little fs vs).map (fun r => (if pyTruthy v then [1] else [0]) ++ r)
  | .charf :: fs, .bytes s :: vs =>
      if s.length = 1 then (fieldsPack little fs vs).map (fun r => s ++ r) else .error ()
  | .strf n :: fs, .bytes s :: vs =>
      (fieldsPack little fs vs).map (fun r => (s.take n ++ List.replicate (n - s.length) 0) ++ r)
  | .pstrf n :: fs, .bytes s :: vs =>
      (fieldsPack little fs vs).map (fun r => pPack n s ++ r)
  | _ :: _, _ => .error ()

/-- The byte-order prefix characters `@ = < > !`. -/
def orderChars : List Nat := [64, 61, 60, 62, 33]

/-- Whether a byte is an ASCII decimal digit. -/
def isDigitB (c : Nat) : Bool := 48 ≤ c && c ≤ 57

/-- Whether a byte is ASCII whitespace (space, tab, CR, LF). -/
def isSpaceB (c : Nat) : Bool := c = 32 || c = 9 || c = 13 || c = 10

/-- The fields one scalar code compiles to, given the pending repeat count
(`none` means no count, i.e. 1).  `native` selects LP64 sizes for `l`/`L`
and admits `P`; the float codes `f`/`d` are outside this embedding and are
rejected here. -/
def charFields (native : Bool) (q : Option Nat) (c : Nat) : Except PyErr (List SField) :=
  let n := q.getD 1
  if c = 120 then .ok [.pad n]                         -- x
  else if c = 99 then .ok (List.replicate n .charf)    -- c
  else if c = 98 then .ok (List.replicate n (.sint 1)) -- b
  else if c = 66 then .ok (List.replicate n (.uint 1)) -- B
  else if c = 63 then .ok (List.replicate n .boolf)    -- ?
  else if c = 104 then .ok (List.replicate n (.sint 2)) -- h
  else if c = 72 then .ok (List.replicate n (.uint 2))  -- H
  else if c = 105 then .ok (List.replicate n (.sint 4)) -- i
  else if c = 73 then .ok (List.replicate n (.uint 4))  -- I
  else if c = 108 then .ok (List.replicate n (.sint (if native then 8 else 4))) -- l
  else if c = 76 then .ok (List.replicate n (.uint (if native then 8 else 4)))  -- L
  else if c = 113 then .ok (List.replicate n (.sint 8)) -- q
  else if c = 81 then .ok (List.replicate n (.uint 8))  -- Q
  else if c = 115 then .ok [.strf n]                    -- s
  else if c = 112 then .ok [.pstrf n]                   -- p
  else if c = 80 then (if native then .ok (List.replicate n (.uint 8)) else .error .formatError) -- P
  else .error .formatError

/-- The scan of `struct.Struct.__init__` over a (byte-order-stripped) format:
digits accumulate a repeat count, whitespace is skipped but may not follow a
pending count, a trailing count is an error. -/
def parseFields (native : Bool) : Option Nat → List Nat → Except PyErr (List SField)
  | q, [] => if q.isSome then .error .formatError else .ok []
  | q, ch :: cs =>
      if isDigitB ch then parseFields native (some (q.getD 0 * 10 + (ch - 48))) cs
      else if isSpaceB ch then
        if q.isSome then .error .formatError else parseFields native none cs
      else
        match charFields native q ch with
        | .error e => .error e
        | .ok fs =>
            match parseFields native none cs with
            | .error e => .error e
            | .ok rest => .ok (fs ++ rest)

/-- The native alignment of a field (x86-64: integers align to their size). -/
def fieldAlign : SField → Nat
  | .sint w => w
  | .uint w => w
  | _ => 1

/-- Insert native alignment padding before each field, tracking the offset. -/
def alignPass (off : Nat) : List SField → List SField
  | [] => []
  | f :: fs =>
      let a := fieldAlign f
      let padAmt := (a - off % a) % a
      (if padAmt = 0 then [f] else [.pad padAmt, f]) ++
        alignPass (off + padAmt + fieldSize f) fs

/-- Compile one struct format body (already stripped of the byte-order
character) into fields, applying native alignment when requested. -/
def parseStruct (native : Bool) (seg : List Nat) : Except PyErr (List SField) :=
  (parseFields native none seg).map (fun fs => if native then alignPass 0 fs else fs)

/-- Split a full struct format into (native, little-endian, body): an
optional leading byte-order character, defaulting to `@`-free big-endian
for `struct` itself only when prefixed; `netstruct` always supplies one of
`@ = < > !` explicitly or defaults to `!`. -/
def stripOrder (fmt : List Nat) : Bool × Bool × List Nat :=
  match fmt with
  | [] => (false, false, [])
  | c :: cs =>
      if c ∈ orderChars then (c = 64, c = 64 || c = 61 || c = 60, cs)
      else (false, false, fmt)

/-- `struct.calcsize`. -/
def calcsize (fmt : List Nat) : Except PyErr Nat :=
  let triple := stripOrder fmt
  (parseStruct triple.1 triple.2.2).map fieldsSize

/-- The scan of the source's `_count` helper: counts how many values a
format consumes, treating `s`/`p` as one value each; note that it counts
pad bytes `x` as values and silently ignores trailing digits, exactly like
the source. -/
def countAux : Option Nat → Nat → List Nat → Except PyErr Nat
  | _, acc, [] => .ok acc
  | q, acc, ch :: cs =>
      if isDigitB ch then countAux (some (q.getD 0 * 10 + (ch - 48))) acc cs
      else if isSpaceB ch then
        if q.isSome then .error .formatError else countAux none acc cs
      else if ch = 112 || ch = 115 then countAux none (acc + 1) cs  -- p s
      else if ch = 120 || ch = 99 || ch = 98 || ch = 66 || ch = 63 ||
              ch = 104 || ch = 72 || ch = 105 || ch = 73 || ch = 108 ||
              ch = 76 || ch = 113 || ch = 81 || ch = 102 || ch = 100 ||
              ch = 80 then                                          -- x c b B ? h H i I l L q Q f d P
        countAux none (acc + q.getD 1) cs
      else .error .formatError

/-- The source's `_count(format)`: strips an optional byte-order character,
then scans. -/
def countFmt (seg : List Nat) : Except PyErr Nat :=
  countAux none 0 (if seg.headD 0 ∈ orderChars then seg.drop 1 else seg)

/-- One compiled segment: the scalar layout before the next `$` (or the end
of the format), its value count as computed by `_count`, and whether a
variable-length string follows. -/
structure SegPair where
  little : Bool
  fields : List SField
  count : Nat
  hasStr : Bool
deriving DecidableEq, Repr

/-- The fixed packed size of a segment (`struct.Struct.size`). -/
def SegPair.size (p : SegPair) : Nat := fieldsSize p.fields

/-- Split the format body at each `$`, mirroring the source's
`format.partition(b"$")` loop: each element is (segment bytes, whether a
`$` followed); a trailing `$` ends the loop without an extra segment. -/
def splitSegsAux (cur : List Nat) : List Nat → List (List Nat × Bool)
  | [] => [(cur.reverse, false)]
  | c :: cs =>
      if c = 36 then
        (cur.reverse, true) ::
          (match cs with
           | [] => []
           | _ :: _ => splitSegsAux [] cs)
      else splitSegsAux (c :: cur) cs

/-- The segments of a format body (empty body: no segments, the loop never
runs). -/
def splitSegs : List Nat → List (List Nat × Bool)
  | [] => []
  | c :: cs => splitSegsAux [] (c :: cs)

/-- The integer-typed codes that may precede a `$` (`bBhHiIlLqQP`). -/
def dollarCodes : List Nat := [98, 66, 104, 72, 105, 73, 108, 76, 113, 81, 80]

/-- Whether the last byte of a segment is a valid `$`-predecessor
(`segment[-1:] in "bBhHiIlLqQP"`; an empty segment has no last byte). -/
def lastInDollarCodes (seg : List Nat) : Bool :=
  match seg.getLast? with
  | none => false
  | some c => c ∈ dollarCodes

/-- Compile each split segment: reject a `$` after an empty segment or a
non-integer code, then compile the scalar layout and count its values. -/
def segsToPairs (native little : Bool) : List (List Nat × Bool) → Except PyErr (List SegPair)
  | [] => .ok []
  | (seg, sep) :: rest =>
      if sep && !lastInDollarCodes seg then .error .formatError
      else
        match parseStruct native seg with
        | .error e => .error e
        | .ok fields =>
            match countFmt seg with
            | .error e => .error e
            | .ok cnt =>
                match segsToPairs native little rest with
                | .error e => .error e
                | .ok ps => .ok (⟨little, fields, cnt, sep⟩ :: ps)

/-- Compile a format body into segments (the source's `while format:` loop). -/
def buildPairs (native little : Bool) (fmt : List Nat) : Except PyErr (List SegPair) :=
  segsToPairs native little (splitSegs fmt)

/-- Whether the format contains adjacent `$$` anywhere (`b"$$" in format`). -/
def hasDollarDollar : List Nat → Bool
  | [] => false
  | [_] => false
  | c :: d :: cs => (c = 36 && d = 36) || hasDollarDollar (d :: cs)

/-- The compiled `NetStruct` object: segment list, minimum size, initial
size (the source also stores the original format string, used only for
introspection and not modelled). -/
structure NetStruct where
  pairs : List SegPair
  minsize : Nat
  initsize : Nat
deriving DecidableEq, Repr

/-- The accumulated minimum size (`self._minsize += st.size` per segment). -/
def sumSizes : List SegPair → Nat
  | [] => 0
  | p :: ps => p.size + sumSizes ps

/-- `NetStruct.__init__`: falsy formats produce the empty codec, non-byte
formats raise `TypeError`, `$$` and bad `$` placement raise `struct.error`,
and a format consisting only of a byte-order character hits `pairs[0]` and
raises `IndexError`.  (A non-ASCII byte before `$` raises
`UnicodeDecodeError` in the Python 2 source; the model folds that into
`formatError` — both reject the format.) -/
def netStructNew (arg : PyArg) : Except PyErr NetStruct :=
  if pyFalsy arg then .ok ⟨[], 0, 0⟩
  else
    match arg with
    | .bytes fmt =>
        if hasDollarDollar fmt then .error .formatError
        else
          let triple := stripOrder fmt
          match buildPairs triple.1 triple.2.1 triple.2.2 with
          | .error e => .error e
          | .ok [] => .error .indexError
          | .ok (p :: ps) => .ok ⟨p :: ps, sumSizes (p :: ps), p.size⟩
    | _ => .error .typeError

/-- One iteration of `NetStruct.pack`: for a string segment the value at
index `count-1` supplies both the length (as the last scalar) and the
appended raw bytes; Python indexing applies, so `count = 0` reaches for
`data[-1]`.  Leftover values after the last segment are silently ignored,
exactly as in the source. -/
def packPairs : List SegPair → List PyVal → Except PyErr (List Nat)
  | [], _ => .ok []
  | p :: rest, data =>
      if p.hasStr then
        match pyGetV ((p.count : Int) - 1) data with
        | none => .error .indexError
        | some v =>
            match v with
            | .bytes s =>
                match fieldsPack p.little p.fields
                        (pyTake ((p.count : Int) - 1) data ++ [.int s.length]) with
                | .error _ => .error .sizeError
                | .ok b =>
                    match packPairs rest (data.drop p.count) with
                    | .error e => .error e
                    | .ok r => .ok (b ++ s ++ r)
            | _ => .error .typeError
      else
        match fieldsPack p.little p.fields (data.take p.count) with
        | .error _ => .error .sizeError
        | .ok b =>
            match packPairs rest (data.drop p.count) with
            | .error e => .error e
            | .ok r => .ok (b ++ r)

/-- `NetStruct.pack(*data)`. -/
def NetStruct.pack (ns : NetStruct) (data : List PyVal) : Except PyErr (List Nat) :=
  packPairs ns.pairs data

/-- The suspension state of the decoding generator: either at the top of a
segment's fixed-layout phase, or inside a string phase with the popped
length. -/
inductive SuspState
  | atFixed (pairs : List SegPair) (acc : List PyVal) (buf : List Nat)
  | inStr (needed : Int) (rest : List SegPair) (acc : List PyVal) (buf : List Nat)
deriving DecidableEq, Repr

/-- What running the generator up to its next yield produces: a request for
more bytes (with the state to resume from), the completed value list with
the unconsumed leftover, or a propagated exception (popping a length from
an empty result list raises IndexError; comparing and subtracting a
non-integer popped length raises TypeError in the Python 2 source). -/
inductive Step
  | more (n : Int) (st : SuspState)
  | done (vals : List PyVal) (rest : List Nat)
  | fail (e : PyErr)
deriving DecidableEq, Repr

/-- Pop the last element of a list (`result.pop()`). -/
def popLast {α : Type} (l : List α) : Option (List α × α) :=
  match l.getLast? with
  | none => none
  | some v => some (l.dropLast, v)

/-- Run the decoding generator from the top of a segment list until it
yields: per segment, suspend while the buffer is shorter than the fixed
size, unpack the fixed layout, then (for string segments) pop the length
and suspend while the buffer is shorter than it; a negative popped length
never suspends and slices with Python negative-index semantics. -/
def runPairs : List SegPair → List PyVal → List Nat → Step
  | [], acc, buf => .done acc buf
  | p :: rest, acc, buf =>
      if p.size ≤ buf.length then
        let vals := fieldsUnpack p.little p.fields (buf.take p.size)
        let buf2 := buf.drop p.size
        if p.hasStr then
          match popLast (acc ++ vals) with
          | none => .fail .indexError
          | some (acc2, .int needed) =>
              if (buf2.length : Int) < needed then
                .more (needed - buf2.length) (.inStr needed rest acc2 buf2)
              else
                runPairs rest (acc2 ++ [.bytes (pyTake needed buf2)]) (pyDrop needed buf2)
          | some (_, _) => .fail .typeError
        else
          runPairs rest (acc ++ vals) buf2
      else
        .more ((p.size : Int) - buf.length) (.atFixed (p :: rest) acc buf)

/-- Resume a suspended string phase with the (possibly extended) buffer. -/
def resumeStr (needed : Int) (rest : List SegPair) (acc : List PyVal) (buf : List Nat) : Step :=
  if (buf.length : Int) < needed then
    .more (needed - buf.length) (.inStr needed rest acc buf)
  else
    runPairs rest (acc ++ [.bytes (pyTake needed buf)]) (pyDrop needed buf)

/-- Feed one chunk to a suspended generator (`it.send(chunk)`): the buffer
grows by the chunk and the generator re-runs from its suspension point. -/
def resumeState : SuspState → List Nat → Step
  | .atFixed pairs acc buf, c => runPairs pairs acc (buf ++ c)
  | .inStr needed rest acc buf, c => resumeStr needed rest acc (buf ++ c)

/-- Drive a decode session over a chunk list: start from `st`, feed chunks
in order; when the generator completes, the leftover is its unconsumed
buffer followed by the chunks never fed.  `none` means the byte supply ran
out before completion (or an exception escaped the generator). -/
def feedAll : Step → List (List Nat) → Option (List PyVal × List Nat)
  | .done vals rest, chunks => some (vals, rest ++ chunks.flatten)
  | .more _ st, c :: cs => feedAll (resumeState st c) cs
  | .more _ _, [] => none
  | .fail _, _ => none

/-- `NetStruct.unpack(data)`: one call to `.next()` on the generator; a
yielded integer (more bytes needed) becomes a `struct.error`, a completed
list is returned and any unconsumed bytes are silently dropped. -/
def NetStruct.unpack (ns : NetStruct) (data : List Nat) : Except PyErr (List PyVal) :=
  match runPairs ns.pairs [] data with
  | .done vals _ => .ok vals
  | .more _ _ => .error .sizeError
  | .fail e => .error e

/-- Whether the run of the generator on this exact buffer consumes every
string through a non-negative popped length (suspensions and completions
count as clean: the predicate constrains only the string slices actually
taken). -/
def cleanRun : List SegPair → List PyVal → List Nat → Bool
  | [], _, _ => true
  | p :: rest, acc, buf =>
      if p.size ≤ buf.length then
        let vals := fieldsUnpack p.little p.fields (buf.take p.size)
        let buf2 := buf.drop p.size
        if p.hasStr then
          match popLast (acc ++ vals) with
          | none => true
          | some (acc2, .int needed) =>
              if (buf2.length : Int) < needed then true
              else
                decide (0 ≤ needed) &&
                  cleanRun rest (acc2 ++ [.bytes (pyTake needed buf2)]) (pyDrop needed buf2)
          | some (_, _) => true
        else
          cleanRun rest (acc ++ vals) buf2
      else true

/-- Module-level `pack(format, *data)`. -/
def pack (fmt : PyArg) (data : List PyVal) : Except PyErr (List Nat) :=
  match netStructNew fmt with
  | .error e => .error e
  | .ok ns => ns.pack data

/-- Module-level `unpack(format, data)`. -/
def unpack (fmt : PyArg) (data : List Nat) : Except PyErr (List PyVal) :=
  match netStructNew fmt with
  | .error e => .error e
  | .ok ns => ns.unpack data

/-- Module-level `minimum_size(format)`: prepend `!` when no byte-order
character leads, drop every `$`, and take `struct.calcsize` of the result. -/
def minimum_size (fmt : List Nat) : Except PyErr Nat :=
  let fmt2 := if fmt.headD 0 ∈ orderChars then fmt else 33 :: fmt
  calcsize (fmt2.filter (fun c => c ≠ 36))

/-- Module-level `initial_size(format)`: strip the byte-order character,
find the first `$` (0 → size 0; present later → re-check `$$` and measure
the prefix; absent → measure the whole format). -/
def initial_size (fmt : List Nat) : Except PyErr Nat :=
  let ordc := if fmt.headD 0 ∈ orderChars then fmt.headD 0 else 33
  let rest := if fmt.headD 0 ∈ orderChars then fmt.drop 1 else fmt
  match rest.findIdx? (fun c => c = 36) with
  | some 0 => .ok 0
  | some k =>
      if hasDollarDollar rest then .error .formatError
      else calcsize (ordc :: rest.take k)
  | none => calcsize (ordc :: rest)

/-- Whether a field list ends in an integer field (the shape a segment in
front of a `$` normally has: its last scalar is the string length). -/
def lastIsInt (fs : List SField) : Bool :=
  match fs.getLast? with
  | some (.sint _) => true
  | some (.uint _) => true
  | _ => false

/-- A segment is good when its string marker (if any) is backed by a
produced integer length; a zero repeat count such as `0b$` violates this. -/
def goodPair (p : SegPair) : Bool := !p.hasStr || lastIsInt p.fields

/-- Whether a field list is free of fixed-size string codes (`s`/`p`). -/
def noSP (fs : List SField) : Bool :=
  fs.all fun f =>
    match f with
    | .strf _ => false
    | .pstrf _ => false
    | _ => true

/-- Whether every integer field of the list has positive width (every
compiled scalar code produces widths 1, 2, 4 or 8). -/
def posW (fs : List SField) : Bool :=
  fs.all fun f =>
    match f with
    | .sint w => decide (0 < w)
    | .uint w => decide (0 < w)
    | _ => true

/-- Whether a value is an actual Python boolean. -/
def PyVal.isBool : PyVal → Bool
  | .bool _ => true
  | .int _ => false
  | .bytes _ => false

/-- Whether every value lined up with a `?` field of the layout is an actual
boolean: pad fields consume no value, every other field consumes one.  The
`?` code packs any value by truthiness, but only a genuine boolean decodes
back to itself. -/
def boolsMatch : List SField → List PyVal → Bool
  | [], _ => true
  | .pad _ :: fs, vs => boolsMatch fs vs
  | .boolf :: _, [] => true
  | .boolf :: fs, v :: vs => v.isBool && boolsMatch fs vs
  | .sint _ :: _, [] => true
  | .sint _ :: fs, _ :: vs => boolsMatch fs vs
  | .uint _ :: _, [] => true
  | .uint _ :: fs, _ :: vs => boolsMatch fs vs
  | .charf :: _, [] => true
  | .charf :: fs, _ :: vs => boolsMatch fs vs
  | .strf _ :: _, [] => true
  | .strf _ :: fs, _ :: vs => boolsMatch fs vs
  | .pstrf _ :: _, [] => true
  | .pstrf _ :: fs, _ :: vs => boolsMatch fs vs

/-- Whether, along the pack loop's traversal of the segment list, every user
value lined up with a `?` field is an actual boolean (the length scalar of a
string segment receives the loop's own appended integer, never a user
value). -/
def pairsBoolsOk : List SegPair → List PyVal → Bool
  | [], _ => true
  | p :: rest, data =>
      (if p.hasStr then
        match pyGetV ((p.count : Int) - 1) data with
        | some (.bytes s) =>
            boolsMatch p.fields (pyTake ((p.count : Int) - 1) data ++ [.int s.length])
        | _ => true
      else boolsMatch p.fields (data.take p.count)) &&
        pairsBoolsOk rest (data.drop p.count)

/-- Total value count of a compiled format (sum of the per-segment counts). -/
def totalCount : List SegPair → Nat
  | [] => 0
  | p :: ps => p.count + totalCount ps

/-- The effect of feeding `ext` more bytes to a generator outcome: a
completed generator keeps its values and appends the new bytes to the
leftover; a suspended one resumes from its suspension state; a raised
exception stays raised. -/
def Step.resume : Step → List Nat → Step
  | .done v r, ext => .done v (r ++ ext)
  | .more _ st, ext => resumeState st ext
  | .fail e, _ => .fail e

/-- Claim C4: compiling `"$"` (marker at start), `"b$$"` (adjacent markers)
and `"i5$"` (digit before the marker) each fail with a grammar
(`struct.error`) error, while compiling the empty format succeeds with
minimum size 0 and zero segments. -/
theorem c4_grammar_rejection :
    netStructNew (.bytes [36]) = .error .formatError ∧
    netStructNew (.bytes [98, 36, 36]) = .error .formatError ∧
    netStructNew (.bytes [105, 53, 36]) = .error .formatError ∧
    netStructNew (.bytes []) = .ok ⟨[], 0, 0⟩ :=
  ⟨rfl, rfl, rfl, rfl⟩

/-- Claim C9: packing `(b"Hello.", 42)` with format `"b$i"` yields exactly
`06 48 65 6C 6C 6F 2E 00 00 00 2A` — the length byte 6 derived from the
string, the six raw bytes verbatim, then the big-endian 4-byte integer 42. -/
theorem c9_string_pack_literal :
    pack (.bytes [98, 36, 105]) [.bytes [72, 101, 108, 108, 111, 46], .int 42] =
      .ok [6, 72, 101, 108, 108, 111, 46, 0, 0, 0, 42] :=
  rfl

/-- Claim C3 (code evaluated at the failing input): packing an
`ih$5b`-compiled format with 6 values raises a size error, but with 8
values the source silently ignores the extra value and succeeds —
contradicting the claim and the repository's own `test_too_many`. -/
theorem c3_pack_arity :
    pack (.bytes [105, 104, 36, 53, 98])
        [.int 1, .bytes [72, 105], .int 1, .int 2, .int 3, .int 4] = .error .sizeError ∧
    pack (.bytes [105, 104, 36, 53, 98])
        [.int 1, .bytes [72, 105], .int 1, .int 2, .int 3, .int 4, .int 5, .int 99] =
      .ok [0, 0, 0, 1, 0, 2, 72, 105, 1, 2, 3, 4, 5] :=
  ⟨rfl, rfl⟩

/-- Claim C5 (code evaluated at the failing input): decoding format `"b$"`
on `\xfe A B` pops the negative length −2, and instead of failing the
session completes with the corrupted value `[b""]` and leftover `b"AB"`
(Python negative-slice semantics), and one-shot unpack returns it. -/
theorem c5_negative_length_no_failure :
    (netStructNew (.bytes [98, 36])).map (fun ns => runPairs ns.pairs [] [254, 65, 66]) =
      .ok (.done [.bytes []] [65, 66]) ∧
    unpack (.bytes [98, 36]) [254, 65, 66] = .ok [.bytes []] :=
  ⟨rfl, rfl⟩

/-- Claim C1, counterexample: with format `"b$"` and record bytes
`FF 58 59 5A` (length byte −1), one-shot decoding yields `[b"XY"]` with
leftover `"Z"`, while feeding the same bytes one at a time yields `[b""]`
with leftover `"XYZ"` — the incremental and one-shot results differ. -/
theorem c1_counterexample :
    (netStructNew (.bytes [98, 36])).map
        (fun ns => (runPairs ns.pairs [] [255, 88, 89, 90],
                    feedAll (runPairs ns.pairs [] []) [[255], [88], [89], [90]])) =
      .ok (.done [.bytes [88, 89]] [90], some ([.bytes []], [88, 89, 90])) ∧
    ([PyVal.bytes [88, 89]] : List PyVal) ≠ [PyVal.bytes []] :=
  ⟨rfl, by decide⟩

/-- Claim C2, counterexample: with format `"2s"` and the arity/type-matching
value sequence `[b"a"]`, pack zero-pads to `61 00` and unpacking that yields
`[b"a\x00"]`, not the original `[b"a"]` — the round-trip fails on fixed-size
string codes; and with format `"?"` packing the integer 5 succeeds through
truthiness and unpacking the packed byte yields `[True]`, not `[5]` — the
round-trip also fails on non-boolean values in `?` slots. -/
theorem c2_counterexample :
    (netStructNew (.bytes [50, 115])).map
        (fun ns => (ns.pack [.bytes [97]], ns.unpack [97, 0])) =
      .ok (.ok [97, 0], .ok [.bytes [97, 0]]) ∧
    ([PyVal.bytes [97, 0]] : List PyVal) ≠ [PyVal.bytes [97]] ∧
    (netStructNew (.bytes [63])).map
        (fun ns => (ns.pack [.int 5], ns.unpack [1])) =
      .ok (.ok [1], .ok [.bool true]) ∧
    ([PyVal.bool true] : List PyVal) ≠ [PyVal.int 5] :=
  ⟨rfl, by decide, rfl, by decide⟩

/-- Claim C6, counterexample: format `"0b$h"` compiles (minimum size 2), but
unpacking the empty buffer pops the string length from an empty result list
and raises `IndexError`, not the claimed size error. -/
theorem c6_counterexample :
    (netStructNew (.bytes [48, 98, 36, 104])).map (fun ns => (ns.minsize, ns.unpack [])) =
      .ok (2, .error .indexError) ∧
    PyErr.indexError ≠ PyErr.sizeError :=
  ⟨rfl, by decide⟩

/-- Claim C7, counterexample: the empty text (unicode) string is not a byte
sequence, yet the constructor accepts it through the falsy check and
returns the empty codec instead of raising `TypeError`. -/
theorem c7_counterexample :
    netStructNew (.text "") = .ok ⟨[], 0, 0⟩ ∧ PyArg.isBytes (.text "") = false :=
  ⟨rfl, rfl⟩

/-- Claim C7, amended: construction raises `TypeError` for every non-byte
format argument that is truthy; falsy non-byte arguments slip through the
`if not format` check and produce the empty codec. -/
theorem c7_amended (a : PyArg) (hb : a.isBytes = false) (hf : pyFalsy a = false) :
    netStructNew a = .error .typeError := by
  cases a with
  | bytes b => simp [PyArg.isBytes] at hb
  | text s => simp [netStructNew, hf]
  | int n => simp [netStructNew, hf]

/-- Witness for `c7_amended` at the concrete non-byte truthy argument 42. -/
theorem c7_amended_witness : netStructNew (.int 42) = .error .typeError :=
  c7_amended (.int 42) rfl rfl

/-- Claim C10, counterexample: for the native-order format `"@h$i"` the
compiled minimum size is 6 (2 + 4, summed per segment), but the
module-level `minimum_size` measures `"@hi"` as one layout and alignment
padding makes it 8. -/
theorem c10_counterexample :
    (netStructNew (.bytes [64, 104, 36, 105])).map NetStruct.minsize = .ok 6 ∧
    minimum_size [64, 104, 36, 105] = .ok 8 ∧ (6 : Nat) ≠ 8 :=
  ⟨rfl, rfl, by decide⟩

/-- `sumSizes` is the sum of the per-segment sizes. -/
theorem sumSizes_eq_map_sum (l : List SegPair) :
    sumSizes l = (l.map SegPair.size).sum := by
  induction l with
  | nil => rfl
  | cons p ps ih => simp [sumSizes, ih]

/-- In the dollar-split of a format body, a segment not followed by `$` is
always the last segment. -/
theorem splitSegsAux_false_last :
    ∀ (cs : List Nat) (cur s : List Nat) (rest : List (List Nat × Bool)),
      splitSegsAux cur cs = (s, false) :: rest → rest = [] := by
  intro cs
  induction cs with
  | nil =>
      intro cur s rest h
      simp only [splitSegsAux] at h
      exact ((List.cons.inj h).2).symm
  | cons c cs ih =>
      intro cur s rest h
      simp only [splitSegsAux] at h
      by_cases hc : c = 36
      · simp [hc] at h
      · simp [hc] at h
        exact ih (c :: cur) s rest h

/-- Inversion of one step of `segsToPairs`. -/
theorem segsToPairs_ok_cons {nat lit : Bool} {seg : List Nat} {sep : Bool}
    {rest : List (List Nat × Bool)} {pairs : List SegPair}
    (h : segsToPairs nat lit ((seg, sep) :: rest) = .ok pairs) :
    ∃ fields cnt ps, parseStruct nat seg = .ok fields ∧ countFmt seg = .ok cnt ∧
      segsToPairs nat lit rest = .ok ps ∧
      pairs = ⟨lit, fields, cnt, sep⟩ :: ps ∧
      (sep = true → lastInDollarCodes seg = true) := by
  simp only [segsToPairs] at h
  by_cases hchk : (sep && !lastInDollarCodes seg) = true
  · rw [if_pos hchk] at h
    exact absurd h (by simp)
  · rw [if_neg hchk] at h
    cases hps : parseStruct nat seg with
    | error e => rw [hps] at h; exact absurd h (by simp)
    | ok fields =>
        rw [hps] at h
        cases hcnt : countFmt seg with
        | error e => rw [hcnt] at h; exact absurd h (by simp)
        | ok cnt =>
            rw [hcnt] at h
            cases hrest : segsToPairs nat lit rest with
            | error e => rw [hrest] at h; exact absurd h (by simp)
            | ok ps =>
                rw [hrest] at h
                refine ⟨fields, cnt, ps, rfl, rfl, rfl, ?_, ?_⟩
                · exact (Except.ok.injEq _ _ ▸ h).symm
                · intro hsep
                  by_cases hl : lastInDollarCodes seg = true
                  · exact hl
                  · exact absurd (by simp [hsep, hl] : (sep && !lastInDollarCodes seg) = true) hchk

/-- In a compiled segment list, every segment before another segment carries
a trailing string (only the final segment may lack one). -/
theorem buildPairs_cons_cons_hasStr {nat lit : Bool} {fmt : List Nat}
    {p q : SegPair} {ps : List SegPair}
    (h : buildPairs nat lit fmt = .ok (p :: q :: ps)) : p.hasStr = true := by
  unfold buildPairs at h
  cases fmt with
  | nil => exact absurd h (by simp [splitSegs, segsToPairs])
  | cons c cs =>
      simp only [splitSegs] at h
      cases hsp : splitSegsAux [] (c :: cs) with
      | nil => rw [hsp] at h; exact absurd h (by simp [segsToPairs])
      | cons sb rest =>
          rw [hsp] at h
          obtain ⟨seg, sep⟩ := sb
          obtain ⟨fields, cnt, ps2, _, _, hrest, heq, _⟩ := segsToPairs_ok_cons h
          have hp : p = ⟨lit, fields, cnt, sep⟩ := (List.cons.inj heq).1
          have hps2 : ps2 = q :: ps := ((List.cons.inj heq).2).symm
          by_cases hsep : sep = true
          · rw [hp]; exact hsep
          · have hsepf : sep = false := by simpa using hsep
            rw [hsepf] at hsp
            have := splitSegsAux_false_last (c :: cs) [] seg rest hsp
            rw [this] at hrest
            rw [hps2] at hrest
            exact absurd hrest (by simp [segsToPairs])

/-- Inversion of the `NetStruct` constructor on an accepted byte format:
either the format is empty, or the segment list is nonempty and the sizes
are the recorded accumulations. -/
theorem netStructNew_ok_inv {fmt : List Nat} {ns : NetStruct}
    (h : netStructNew (.bytes fmt) = .ok ns) :
    (fmt = [] ∧ ns = ⟨[], 0, 0⟩) ∨
    (∃ p ps, buildPairs (stripOrder fmt).1 (stripOrder fmt).2.1 (stripOrder fmt).2.2 =
        .ok (p :: ps) ∧ ns = ⟨p :: ps, sumSizes (p :: ps), p.size⟩) := by
  by_cases hf : pyFalsy (PyArg.bytes fmt) = true
  · left
    have hfmt : fmt = [] := by simpa [pyFalsy] using hf
    subst hfmt
    have hred : netStructNew (.bytes []) = .ok ⟨[], 0, 0⟩ := rfl
    rw [hred] at h
    exact ⟨rfl, by simpa using h.symm⟩
  · right
    by_cases hdd : hasDollarDollar fmt = true
    · have hred : netStructNew (.bytes fmt) = .error .formatError := by
        simp [netStructNew, hf, hdd]
      rw [hred] at h
      exact absurd h (by simp)
    · have hred : netStructNew (.bytes fmt) =
          (match buildPairs (stripOrder fmt).1 (stripOrder fmt).2.1 (stripOrder fmt).2.2 with
           | .error e => .error e
           | .ok [] => .error .indexError
           | .ok (p :: ps) => .ok ⟨p :: ps, sumSizes (p :: ps), p.size⟩) := by
        simp [netStructNew, hf, hdd]
      rw [hred] at h
      cases hbp : buildPairs (stripOrder fmt).1 (stripOrder fmt).2.1 (stripOrder fmt).2.2 with
      | error e => rw [hbp] at h; exact absurd h (by simp)
      | ok pairs =>
          rw [hbp] at h
          cases pairs with
          | nil => exact absurd h (by simp)
          | cons p ps => exact ⟨p, ps, rfl, by simpa using h.symm⟩

/-- Claim C8: for every accepted format, the compiled minimum size is the
sum of the fixed packed sizes of its segments, and the initial size is the
first segment's fixed size — 0 for the empty format, and the whole minimum
size when no segment carries a string. -/
theorem c8_size_bookkeeping (fmt : List Nat) (ns : NetStruct)
    (h : netStructNew (.bytes fmt) = .ok ns) :
    ns.minsize = (ns.pairs.map SegPair.size).sum ∧
    (ns.pairs = [] → ns.initsize = 0) ∧
    (∀ p ps, ns.pairs = p :: ps → ns.initsize = p.size) ∧
    ((∀ p ∈ ns.pairs, p.hasStr = false) → ns.initsize = ns.minsize) := by
  rcases netStructNew_ok_inv h with ⟨_, hns⟩ | ⟨p, ps, hbp, hns⟩
  · subst hns
    exact ⟨rfl, fun _ => rfl, fun p ps hping => by simp at hping, fun _ => rfl⟩
  · subst hns
    refine ⟨(sumSizes_eq_map_sum _), fun hnil => by simp at hnil, ?_, ?_⟩
    · intro q qs hq
      have : q = p := by simpa using congrArg (fun l => l.headD q) hq.symm
      rw [this]
    · intro hall
      cases ps with
      | nil => simp [sumSizes]
      | cons q qs =>
          have hstr := buildPairs_cons_cons_hasStr hbp
          have : p.hasStr = false := hall p (by simp)
          rw [this] at hstr
          exact absurd hstr (by simp)

/-- Witness for `c8_size_bookkeeping` at the concrete format `ih$5b`
(minimum size 11 = 6 + 5, initial size 6, first segment carries a string). -/
theorem c8_size_bookkeeping_witness :
    (11 : Nat) = ([6, 5] : List Nat).sum ∧ (11 : Nat) = 11 := by
  have h := c8_size_bookkeeping [105, 104, 36, 53, 98]
    ⟨[⟨false, [.sint 4, .sint 2], 2, true⟩,
      ⟨false, [.sint 1, .sint 1, .sint 1, .sint 1, .sint 1], 5, false⟩], 11, 6⟩ rfl
  exact ⟨h.1, rfl⟩

/-- A Python tail-slice never lengthens the list. -/
theorem pyDrop_length_le {α : Type} (n : Int) (l : List α) :
    (pyDrop n l).length ≤ l.length := by
  unfold pyDrop
  split <;> simp

/-- A completed decode consumed at least every segment's fixed size. -/
theorem runPairs_done_length :
    ∀ (pairs : List SegPair) (acc : List PyVal) (buf : List Nat)
      (vals : List PyVal) (rest : List Nat),
      runPairs pairs acc buf = .done vals rest → sumSizes pairs ≤ buf.length := by
  intro pairs
  induction pairs with
  | nil => intro acc buf vals rest _; simp [sumSizes]
  | cons p ps ih =>
      intro acc buf vals rest h
      simp only [runPairs] at h
      by_cases hsz : p.size ≤ buf.length
      · rw [if_pos hsz] at h
        simp only [sumSizes]
        by_cases hstr : p.hasStr = true
        · rw [if_pos hstr] at h
          cases hpop : popLast (acc ++ fieldsUnpack p.little p.fields (buf.take p.size)) with
          | none => simp only [hpop] at h; exact Step.noConfusion h
          | some pr =>
              obtain ⟨acc2, v⟩ := pr
              cases v with
              | int needed =>
                  simp only [hpop] at h
                  by_cases hneed : ((buf.drop p.size).length : Int) < needed
                  · rw [if_pos hneed] at h; exact absurd h (by simp)
                  · rw [if_neg hneed] at h
                    have hle := ih _ _ _ _ h
                    have hd := pyDrop_length_le needed (buf.drop p.size)
                    simp only [List.length_drop] at hle hd
                    omega
              | bytes b => simp only [hpop] at h; exact Step.noConfusion h
              | bool b => simp only [hpop] at h; exact Step.noConfusion h
        · rw [if_neg hstr] at h
          have hle := ih _ _ _ _ h
          simp only [List.length_drop] at hle
          omega
      · rw [if_neg hsz] at h
        exact absurd h (by simp)

/-- Unpacking a field list that ends in an integer field produces a value
list that ends in an integer. -/
theorem fieldsUnpack_lastIsInt (little : Bool) :
    ∀ (fs : List SField) (bs : List Nat), lastIsInt fs = true →
      ∃ m, (fieldsUnpack little fs bs).getLast? = some (.int m) := by
  intro fs
  induction fs with
  | nil => intro bs h; simp [lastIsInt] at h
  | cons f fs ih =>
      intro bs h
      cases fs with
      | nil =>
          cases f with
          | sint w =>
              have hu : fieldsUnpack little [.sint w] bs =
                  [.int (if 2 ^ (8 * w - 1) ≤ decodeInt little (bs.take w) then
                    (decodeInt little (bs.take w) : Int) - 2 ^ (8 * w)
                  else (decodeInt little (bs.take w) : Int))] := by
                simp [fieldsUnpack, fieldOut]
              rw [hu]
              simp
          | uint w =>
              have hu : fieldsUnpack little [.uint w] bs =
                  [.int (decodeInt little (bs.take w))] := by
                simp [fieldsUnpack, fieldOut]
              rw [hu]
              simp
          | pad n => simp [lastIsInt] at h
          | boolf => simp [lastIsInt] at h
          | charf => simp [lastIsInt] at h
          | strf n => simp [lastIsInt] at h
          | pstrf n => simp [lastIsInt] at h
      | cons g gs =>
          have htail : lastIsInt (g :: gs) = true := by
            simpa [lastIsInt, List.getLast?_cons_cons] using h
          obtain ⟨m, hm⟩ := ih (bs.drop (fieldSize f)) htail
          refine ⟨m, ?_⟩
          have hne : fieldsUnpack little (g :: gs) (bs.drop (fieldSize f)) ≠ [] := by
            intro hnil
            rw [hnil] at hm
            simp at hm
          have hstep : fieldsUnpack little (f :: g :: gs) bs =
              fieldOut little f bs ++ fieldsUnpack little (g :: gs) (bs.drop (fieldSize f)) :=
            rfl
          rw [hstep, List.getLast?_append_of_ne_nil _ hne]
          exact hm

/-- On a segment list whose string markers are all backed by integer
lengths, the decoding generator never raises. -/
theorem runPairs_good_not_fail :
    ∀ (pairs : List SegPair) (acc : List PyVal) (buf : List Nat) (e : PyErr),
      (∀ p ∈ pairs, goodPair p = true) → runPairs pairs acc buf ≠ .fail e := by
  intro pairs
  induction pairs with
  | nil =>
      intro acc buf e _ h
      have hd : runPairs [] acc buf = .done acc buf := rfl
      rw [hd] at h
      exact Step.noConfusion h
  | cons p ps ih =>
      intro acc buf e hgood h
      simp only [runPairs] at h
      by_cases hsz : p.size ≤ buf.length
      · rw [if_pos hsz] at h
        by_cases hstr : p.hasStr = true
        · rw [if_pos hstr] at h
          have hint : lastIsInt p.fields = true := by
            have := hgood p (by simp)
            simpa [goodPair, hstr] using this
          obtain ⟨m, hm⟩ := fieldsUnpack_lastIsInt p.little p.fields (buf.take p.size) hint
          have hne : fieldsUnpack p.little p.fields (buf.take p.size) ≠ [] := by
            intro hnil; rw [hnil] at hm; simp at hm
          have hlast : (acc ++ fieldsUnpack p.little p.fields (buf.take p.size)).getLast? =
              some (.int m) := by
            rw [List.getLast?_append_of_ne_nil _ hne]
            exact hm
          have hpop : popLast (acc ++ fieldsUnpack p.little p.fields (buf.take p.size)) =
              some ((acc ++ fieldsUnpack p.little p.fields (buf.take p.size)).dropLast,
                PyVal.int m) := by
            rw [popLast, hlast]
          simp only [hpop] at h
          by_cases hneed : ((buf.drop p.size).length : Int) < m
          · rw [if_pos hneed] at h; exact absurd h (by simp)
          · rw [if_neg hneed] at h
            exact ih _ _ e (fun q hq => hgood q (by simp [hq])) h
        · rw [if_neg hstr] at h
          exact ih _ _ e (fun q hq => hgood q (by simp [hq])) h
      · rw [if_neg hsz] at h
        exact absurd h (by simp)

/-- Claim C6 (amended): for every compiled format whose string markers are
backed by produced integer lengths, one-shot unpack raises the size error
(a distinct error from the grammar family) whenever the buffer is too short
for the decode to complete a full record — in particular whenever it is
shorter than the minimum size — and whenever the decode completes on the
buffer it succeeds with the decoded values, silently ignoring trailing
surplus. -/
theorem c6_unpack_asymmetry :
    (∀ (fmt : List Nat) (ns : NetStruct) (data : List Nat),
        netStructNew (.bytes fmt) = .ok ns →
        (∀ p ∈ ns.pairs, goodPair p = true) →
        data.length < ns.minsize → ns.unpack data = .error .sizeError) ∧
    (∀ (fmt : List Nat) (ns : NetStruct) (data : List Nat),
        netStructNew (.bytes fmt) = .ok ns →
        (∀ p ∈ ns.pairs, goodPair p = true) →
        (∀ (vals : List PyVal) (rest : List Nat),
          runPairs ns.pairs [] data ≠ .done vals rest) →
        ns.unpack data = .error .sizeError) ∧
    (∀ (fmt : List Nat) (ns : NetStruct) (data : List Nat)
        (vals : List PyVal) (rest : List Nat),
        netStructNew (.bytes fmt) = .ok ns →
        runPairs ns.pairs [] data = .done vals rest → ns.unpack data = .ok vals) := by
  refine ⟨?_, ?_, ?_⟩
  · intro fmt ns data hok hgood hshort
    have hmin : ns.minsize = sumSizes ns.pairs := by
      rcases netStructNew_ok_inv hok with ⟨_, hns⟩ | ⟨p, ps, _, hns⟩ <;> subst hns <;> rfl
    unfold NetStruct.unpack
    cases hrun : runPairs ns.pairs [] data with
    | done vals rest =>
        have := runPairs_done_length ns.pairs [] data vals rest hrun
        omega
    | more n st => rfl
    | fail e => exact absurd hrun (runPairs_good_not_fail ns.pairs [] data e hgood)
  · intro fmt ns data hok hgood hnotdone
    unfold NetStruct.unpack
    cases hrun : runPairs ns.pairs [] data with
    | done vals rest => exact absurd hrun (hnotdone vals rest)
    | more n st => rfl
    | fail e => exact absurd hrun (runPairs_good_not_fail ns.pairs [] data e hgood)
  · intro fmt ns data vals rest _ hrun
    unfold NetStruct.unpack
    rw [hrun]

/-- Witness for `c6_unpack_asymmetry` at the format `b$h` (minimum size 3):
a 2-byte buffer (shorter than the minimum) raises the size error; the
3-byte buffer `05 41 42` (minimum-sized, but its popped string length 5
leaves the record incomplete) also raises the size error; and the complete
record `02 41 42 00 07` succeeds with the decoded values. -/
theorem c6_unpack_asymmetry_witness :
    NetStruct.unpack ⟨[⟨false, [.sint 1], 1, true⟩, ⟨false, [.sint 2], 1, false⟩], 3, 1⟩
        [5, 65] = .error .sizeError ∧
    NetStruct.unpack ⟨[⟨false, [.sint 1], 1, true⟩, ⟨false, [.sint 2], 1, false⟩], 3, 1⟩
        [5, 65, 66] = .error .sizeError ∧
    NetStruct.unpack ⟨[⟨false, [.sint 1], 1, true⟩, ⟨false, [.sint 2], 1, false⟩], 3, 1⟩
        [2, 65, 66, 0, 7] = .ok [.bytes [65, 66], .int 7] :=
  ⟨c6_unpack_asymmetry.1 [98, 36, 104]
      ⟨[⟨false, [.sint 1], 1, true⟩, ⟨false, [.sint 2], 1, false⟩], 3, 1⟩
      [5, 65] rfl (by decide) (by decide),
   c6_unpack_asymmetry.2.1 [98, 36, 104]
      ⟨[⟨false, [.sint 1], 1, true⟩, ⟨false, [.sint 2], 1, false⟩], 3, 1⟩
      [5, 65, 66] rfl (by decide) (by intro vals rest h; injection h),
   c6_unpack_asymmetry.2.2 [98, 36, 104]
      ⟨[⟨false, [.sint 1], 1, true⟩, ⟨false, [.sint 2], 1, false⟩], 3, 1⟩
      [2, 65, 66, 0, 7] [.bytes [65, 66], .int 7] [] rfl rfl⟩

/-- A non-negative Python head-slice within the first list ignores an
extension. -/
theorem pyTake_append_of_le {α : Type} (n : Int) (l1 l2 : List α)
    (h0 : 0 ≤ n) (hle : n ≤ (l1.length : Int)) :
    pyTake n (l1 ++ l2) = pyTake n l1 := by
  unfold pyTake
  rw [if_pos h0, if_pos h0]
  exact List.take_append_of_le_length (Int.toNat_le.mpr hle)

/-- A non-negative Python tail-slice within the first list passes the
extension through. -/
theorem pyDrop_append_of_le {α : Type} (n : Int) (l1 l2 : List α)
    (h0 : 0 ≤ n) (hle : n ≤ (l1.length : Int)) :
    pyDrop n (l1 ++ l2) = pyDrop n l1 ++ l2 := by
  unfold pyDrop
  rw [if_pos h0, if_pos h0]
  exact List.drop_append_of_le_length (Int.toNat_le.mpr hle)

/-- Cleanliness of a run on an extended buffer restricts to the shorter
buffer: every string slice the short run takes is among those the long run
takes. -/
theorem cleanRun_extend :
    ∀ (pairs : List SegPair) (acc : List PyVal) (buf ext : List Nat),
      cleanRun pairs acc (buf ++ ext) = true → cleanRun pairs acc buf = true := by
  intro pairs
  induction pairs with
  | nil => intro acc buf ext _; rfl
  | cons p ps ih =>
      intro acc buf ext hclean
      by_cases hsz : p.size ≤ buf.length
      · have hsz2 : p.size ≤ (buf ++ ext).length := by
          rw [List.length_append]; omega
        have htk : (buf ++ ext).take p.size = buf.take p.size :=
          List.take_append_of_le_length hsz
        have hdr : (buf ++ ext).drop p.size = buf.drop p.size ++ ext :=
          List.drop_append_of_le_length hsz
        simp only [cleanRun, if_pos hsz2, htk, hdr] at hclean
        simp only [cleanRun, if_pos hsz]
        by_cases hstr : p.hasStr = true
        · simp only [hstr, if_true] at hclean ⊢
          cases hpop : popLast (acc ++ fieldsUnpack p.little p.fields (buf.take p.size)) with
          | none => simp only [hpop]
          | some pr =>
              obtain ⟨acc2, v⟩ := pr
              cases v with
              | int needed =>
                  simp only [hpop] at hclean ⊢
                  by_cases hneed : ((buf.drop p.size).length : Int) < needed
                  · rw [if_pos hneed]
                  · rw [if_neg hneed]
                    have hneed2 : ¬ (((buf.drop p.size ++ ext).length : Int) < needed) := by
                      rw [List.length_append]
                      push_cast
                      omega
                    rw [if_neg hneed2, Bool.and_eq_true] at hclean
                    rcases hclean with ⟨h1, h2⟩
                    have hpos : (0 : Int) ≤ needed := of_decide_eq_true h1
                    have hlen : needed ≤ ((buf.drop p.size).length : Int) := by omega
                    rw [pyTake_append_of_le needed _ ext hpos hlen,
                        pyDrop_append_of_le needed _ ext hpos hlen] at h2
                    rw [h1]
                    simpa using ih _ _ ext h2
              | bytes b => simp only [hpop]
              | bool b => simp only [hpop]
        · have hstrf : p.hasStr = false := by simpa using hstr
          simp only [hstrf, Bool.false_eq_true, if_false] at hclean ⊢
          exact ih _ _ ext hclean
      · simp only [cleanRun, if_neg hsz]

/-- Determinism of the suspend/resume decode under byte extension: running
on an extended buffer equals running on the shorter buffer and then feeding
the extension to the outcome, provided every string slice of the extended
run is taken with a non-negative length. -/
theorem runPairs_extend :
    ∀ (pairs : List SegPair) (acc : List PyVal) (buf ext : List Nat),
      cleanRun pairs acc (buf ++ ext) = true →
      runPairs pairs acc (buf ++ ext) = (runPairs pairs acc buf).resume ext := by
  intro pairs
  induction pairs with
  | nil => intro acc buf ext _; rfl
  | cons p ps ih =>
      intro acc buf ext hclean
      by_cases hsz : p.size ≤ buf.length
      · have hsz2 : p.size ≤ (buf ++ ext).length := by
          rw [List.length_append]; omega
        have htk : (buf ++ ext).take p.size = buf.take p.size :=
          List.take_append_of_le_length hsz
        have hdr : (buf ++ ext).drop p.size = buf.drop p.size ++ ext :=
          List.drop_append_of_le_length hsz
        simp only [cleanRun, if_pos hsz2, htk, hdr] at hclean
        by_cases hstr : p.hasStr = true
        · simp only [hstr, if_true] at hclean
          cases hpop : popLast (acc ++ fieldsUnpack p.little p.fields (buf.take p.size)) with
          | none =>
              have hL : runPairs (p :: ps) acc buf = .fail .indexError := by
                simp only [runPairs, if_pos hsz, hstr, if_true, hpop]
              have hR : runPairs (p :: ps) acc (buf ++ ext) = .fail .indexError := by
                simp only [runPairs, if_pos hsz2, htk, hstr, if_true, hpop]
              rw [hL, hR]
              rfl
          | some pr =>
              obtain ⟨acc2, v⟩ := pr
              cases v with
              | int needed =>
                  simp only [hpop] at hclean
                  by_cases hneed : ((buf.drop p.size).length : Int) < needed
                  · have hL : runPairs (p :: ps) acc buf =
                        .more (needed - (buf.drop p.size).length)
                          (.inStr needed ps acc2 (buf.drop p.size)) := by
                      simp only [runPairs, if_pos hsz, hstr, if_true, hpop, if_pos hneed]
                    have hR : runPairs (p :: ps) acc (buf ++ ext) =
                        resumeStr needed ps acc2 (buf.drop p.size ++ ext) := by
                      simp only [runPairs, if_pos hsz2, htk, hdr, hstr, if_true, hpop,
                        resumeStr]
                    rw [hL, hR]
                    rfl
                  · have hneed2 : ¬ (((buf.drop p.size ++ ext).length : Int) < needed) := by
                      rw [List.length_append]
                      push_cast
                      omega
                    rw [if_neg hneed2, Bool.and_eq_true] at hclean
                    rcases hclean with ⟨h1, h2⟩
                    have hpos : (0 : Int) ≤ needed := of_decide_eq_true h1
                    have hlen : needed ≤ ((buf.drop p.size).length : Int) := by omega
                    have htk2 := pyTake_append_of_le needed (buf.drop p.size) ext hpos hlen
                    have hdr2 := pyDrop_append_of_le needed (buf.drop p.size) ext hpos hlen
                    rw [htk2, hdr2] at h2
                    have hL : runPairs (p :: ps) acc buf =
                        runPairs ps (acc2 ++ [.bytes (pyTake needed (buf.drop p.size))])
                          (pyDrop needed (buf.drop p.size)) := by
                      simp only [runPairs, if_pos hsz, hstr, if_true, hpop, if_neg hneed]
                    have hR : runPairs (p :: ps) acc (buf ++ ext) =
                        runPairs ps (acc2 ++ [.bytes (pyTake needed (buf.drop p.size))])
                          (pyDrop needed (buf.drop p.size) ++ ext) := by
                      simp only [runPairs, if_pos hsz2, htk, hdr, hstr, if_true, hpop,
                        if_neg hneed2, htk2, hdr2]
                    rw [hL, hR]
                    exact ih _ _ ext h2
              | bytes b =>
                  have hL : runPairs (p :: ps) acc buf = .fail .typeError := by
                    simp only [runPairs, if_pos hsz, hstr, if_true, hpop]
                  have hR : runPairs (p :: ps) acc (buf ++ ext) = .fail .typeError := by
                    simp only [runPairs, if_pos hsz2, htk, hstr, if_true, hpop]
                  rw [hL, hR]
                  rfl
              | bool b =>
                  have hL : runPairs (p :: ps) acc buf = .fail .typeError := by
                    simp only [runPairs, if_pos hsz, hstr, if_true, hpop]
                  have hR : runPairs (p :: ps) acc (buf ++ ext) = .fail .typeError := by
                    simp only [runPairs, if_pos hsz2, htk, hstr, if_true, hpop]
                  rw [hL, hR]
                  rfl
        · have hstrf : p.hasStr = false := by simpa using hstr
          simp only [hstrf, Bool.false_eq_true, if_false] at hclean
          have hL : runPairs (p :: ps) acc buf =
              runPairs ps (acc ++ fieldsUnpack p.little p.fields (buf.take p.size))
                (buf.drop p.size) := by
            simp only [runPairs, if_pos hsz, hstrf, Bool.false_eq_true, if_false]
          have hR : runPairs (p :: ps) acc (buf ++ ext) =
              runPairs ps (acc ++ fieldsUnpack p.little p.fields (buf.take p.size))
                (buf.drop p.size ++ ext) := by
            simp only [runPairs, if_pos hsz2, htk, hdr, hstrf, Bool.false_eq_true, if_false]
          rw [hL, hR]
          exact ih _ _ ext hclean
      · have hL : runPairs (p :: ps) acc buf =
            .more ((p.size : Int) - buf.length) (.atFixed (p :: ps) acc buf) := by
          simp only [runPairs, if_neg hsz]
        rw [hL]
        rfl

/-- Feeding any chunk decomposition of a buffer reproduces the one-shot
decode on the whole buffer, assuming the one-shot run completes and takes
only non-negative string slices. -/
theorem feedAll_eq_oneshot :
    ∀ (chunks : List (List Nat)) (pairs : List SegPair) (acc : List PyVal)
      (buf : List Nat) (vals : List PyVal) (rest : List Nat),
      cleanRun pairs acc (buf ++ chunks.flatten) = true →
      runPairs pairs acc (buf ++ chunks.flatten) = .done vals rest →
      feedAll (runPairs pairs acc buf) chunks = some (vals, rest) := by
  intro chunks
  induction chunks with
  | nil =>
      intro pairs acc buf vals rest hclean hdone
      simp only [List.flatten_nil, List.append_nil] at hclean hdone
      rw [hdone]
      simp [feedAll]
  | cons c cs ih =>
      intro pairs acc buf vals rest hclean hdone
      have hassoc : buf ++ (c :: cs).flatten = (buf ++ c) ++ cs.flatten := by
        simp [List.flatten_cons, List.append_assoc]
      rw [hassoc] at hclean hdone
      cases hst : runPairs pairs acc buf with
      | done v r =>
          have hcl : cleanRun pairs acc (buf ++ (c ++ cs.flatten)) = true := by
            rw [← List.append_assoc]
            exact hclean
          have hext := runPairs_extend pairs acc buf (c ++ cs.flatten) hcl
          rw [hst] at hext
          have hdone2 : runPairs pairs acc (buf ++ (c ++ cs.flatten)) = .done vals rest := by
            rw [← List.append_assoc]
            exact hdone
          rw [hdone2] at hext
          have hv : vals = v ∧ rest = r ++ (c ++ cs.flatten) := by
            have h1 := hext
            injection h1 with h2 h3
            exact ⟨h2, h3⟩
          simp only [feedAll, List.flatten_cons]
          rw [hv.1, hv.2]
      | more n st =>
          have hclshort : cleanRun pairs acc (buf ++ c) = true :=
            cleanRun_extend pairs acc (buf ++ c) cs.flatten hclean
          have hext := runPairs_extend pairs acc buf c hclshort
          rw [hst] at hext
          have hres : runPairs pairs acc (buf ++ c) = resumeState st c := hext
          simp only [feedAll]
          rw [← hres]
          exact ih pairs acc (buf ++ c) vals rest hclean hdone
      | fail e =>
          have hcl : cleanRun pairs acc (buf ++ (c ++ cs.flatten)) = true := by
            rw [← List.append_assoc]
            exact hclean
          have hext := runPairs_extend pairs acc buf (c ++ cs.flatten) hcl
          rw [hst] at hext
          have hdone2 : runPairs pairs acc (buf ++ (c ++ cs.flatten)) = .done vals rest := by
            rw [← List.append_assoc]
            exact hdone
          rw [hdone2] at hext
          exact Step.noConfusion hext

/-- Claim C1 (amended): for every compiled format and every chunk splitting
of a byte string on which the one-shot decode completes using only
non-negative popped string lengths, feeding the chunks in order through the
incremental decoder yields exactly the one-shot values and leftover (unfed
chunks counting towards the leftover). -/
theorem c1_amended (fmt : List Nat) (ns : NetStruct) (chunks : List (List Nat))
    (vals : List PyVal) (rest : List Nat)
    (hok : netStructNew (.bytes fmt) = .ok ns)
    (hclean : cleanRun ns.pairs [] chunks.flatten = true)
    (hdone : runPairs ns.pairs [] chunks.flatten = .done vals rest) :
    feedAll (runPairs ns.pairs [] []) chunks = some (vals, rest) :=
  feedAll_eq_oneshot chunks ns.pairs [] [] vals rest (by simpa using hclean)
    (by simpa using hdone)

/-- Witness for `c1_amended`: format `b$` with the record bytes
`02 41 42 43` fed one byte at a time decodes to `[b"AB"]` with leftover
`C`, matching the one-shot decode. -/
theorem c1_amended_witness :
    feedAll (runPairs [⟨false, [.sint 1], 1, true⟩] [] []) [[2], [65], [66], [67]] =
      some ([.bytes [65, 66]], [67]) :=
  c1_amended [98, 36] ⟨[⟨false, [.sint 1], 1, true⟩], 1, 1⟩ [[2], [65], [66], [67]]
    [.bytes [65, 66]] [67] rfl rfl rfl

/-- Base-256 digits decode back to the encoded value. -/
theorem decodeLE_natToBytesLE :
    ∀ (w n : Nat), n < 2 ^ (8 * w) → decodeLE (natToBytesLE w n) = n := by
  intro w
  induction w with
  | zero => intro n h; simp [Nat.mul_zero, pow_zero] at h; simp [natToBytesLE, decodeLE, h]
  | succ w ih =>
      intro n h
      have hdiv : n / 256 < 2 ^ (8 * w) := by
        have h2 : 2 ^ (8 * (w + 1)) = 2 ^ (8 * w) * 256 := by
          rw [Nat.mul_succ, pow_add]
          norm_num
        rw [h2] at h
        omega
      simp only [natToBytesLE, decodeLE, ih (n / 256) hdiv]
      omega

/-- The encoding always produces exactly `w` bytes. -/
theorem natToBytesLE_length (w n : Nat) : (natToBytesLE w n).length = w := by
  induction w generalizing n with
  | zero => rfl
  | succ w ih => simp [natToBytesLE, ih]

/-- `intEncode` always produces exactly `w` bytes. -/
theorem intEncode_length (little : Bool) (w : Nat) (m : Int) :
    (intEncode little w m).length = w := by
  unfold intEncode
  cases little <;> simp [natToBytesLE_length]

/-- The wrapped residue of `m` is a `w`-byte value. -/
theorem emod_toNat_lt (w : Nat) (m : Int) :
    (m % ((2 : Int) ^ (8 * w))).toNat < 2 ^ (8 * w) := by
  have hpos : (0 : Int) < (2 : Int) ^ (8 * w) := by positivity
  have h1 : 0 ≤ m % ((2 : Int) ^ (8 * w)) := Int.emod_nonneg m (by omega)
  have h2 : m % ((2 : Int) ^ (8 * w)) < (2 : Int) ^ (8 * w) := Int.emod_lt_of_pos m hpos
  have h3 : ((2 : Int) ^ (8 * w)) = ((2 ^ (8 * w) : Nat) : Int) := by push_cast; ring
  omega

/-- Decoding the encoding of `m` recovers the wrapped residue. -/
theorem decodeInt_intEncode (little : Bool) (w : Nat) (m : Int) :
    decodeInt little (intEncode little w m) = (m % ((2 : Int) ^ (8 * w))).toNat := by
  have hlt := emod_toNat_lt w m
  cases little with
  | true => simp [decodeInt, intEncode, decodeLE_natToBytesLE w _ hlt]
  | false =>
      simp [decodeInt, intEncode, List.reverse_reverse, decodeLE_natToBytesLE w _ hlt]

/-- Signed round-trip: a value in the signed `w`-byte range survives
encode-then-signed-decode. -/
theorem sint_roundtrip (little : Bool) (w : Nat) (m : Int) (hw : 0 < w)
    (hlo : -((2 : Int) ^ (8 * w - 1)) ≤ m) (hhi : m < (2 : Int) ^ (8 * w - 1)) :
    (if 2 ^ (8 * w - 1) ≤ decodeInt little (intEncode little w m) then
      (decodeInt little (intEncode little w m) : Int) - 2 ^ (8 * w)
    else (decodeInt little (intEncode little w m) : Int)) = m := by
  rw [decodeInt_intEncode]
  have hsplit : (2 : Int) ^ (8 * w) = 2 ^ (8 * w - 1) * 2 := by
    conv_lhs => rw [show 8 * w = (8 * w - 1) + 1 by omega]
    rw [pow_succ]
  have hcast : ((2 ^ (8 * w - 1) : Nat) : Int) = (2 : Int) ^ (8 * w - 1) := by
    push_cast; ring
  have hcast2 : ((2 ^ (8 * w) : Nat) : Int) = (2 : Int) ^ (8 * w) := by
    push_cast; ring
  have hpos : (0 : Int) < (2 : Int) ^ (8 * w - 1) := by positivity
  by_cases hm : 0 ≤ m
  · have hmod : m % ((2 : Int) ^ (8 * w)) = m := by
      apply Int.emod_eq_of_lt hm
      omega
    rw [hmod]
    have hnot : ¬ (2 ^ (8 * w - 1) ≤ m.toNat) := by omega
    rw [if_neg hnot]
    omega
  · push_neg at hm
    have hmod : m % ((2 : Int) ^ (8 * w)) = m + (2 : Int) ^ (8 * w) := by
      rw [← Int.add_mul_emod_self_left m ((2 : Int) ^ (8 * w)) 1, mul_one]
      apply Int.emod_eq_of_lt <;> omega
    rw [hmod]
    have hyes : 2 ^ (8 * w - 1) ≤ (m + (2 : Int) ^ (8 * w)).toNat := by omega
    rw [if_pos hyes]
    omega

/-- Unsigned round-trip: a value in the unsigned `w`-byte range survives
encode-then-decode. -/
theorem uint_roundtrip (little : Bool) (w : Nat) (m : Int)
    (hlo : 0 ≤ m) (hhi : m < (2 : Int) ^ (8 * w)) :
    ((decodeInt little (intEncode little w m) : Nat) : Int) = m := by
  rw [decodeInt_intEncode]
  have hmod : m % ((2 : Int) ^ (8 * w)) = m := Int.emod_eq_of_lt hlo hhi
  rw [hmod]
  omega

/-- A successful struct pack emits exactly the layout's packed size. -/
theorem fieldsPack_length (little : Bool) :
    ∀ (fs : List SField) (vals : List PyVal) (out : List Nat),
      fieldsPack little fs vals = .ok out → out.length = fieldsSize fs := by
  intro fs
  induction fs with
  | nil =>
      intro vals out h
      cases vals with
      | nil =>
          simp only [fieldsPack] at h
          injection h with h2
          simp [← h2, fieldsSize]
      | cons v vs => simp only [fieldsPack] at h; exact absurd h (by simp)
  | cons f fs ih =>
      intro vals out h
      cases f with
      | pad n =>
          simp only [fieldsPack] at h
          cases hrec : fieldsPack little fs vals with
          | error e => rw [hrec] at h; exact absurd h (by simp [Except.map])
          | ok r =>
              rw [hrec] at h
              simp only [Except.map] at h
              injection h with h2
              simp [← h2, fieldsSize, fieldSize, ih _ _ hrec]
      | sint w =>
          cases vals with
          | nil => simp only [fieldsPack] at h; exact absurd h (by simp)
          | cons v vs =>
              cases v with
              | int m =>
                  simp only [fieldsPack] at h
                  by_cases hr : -((2 : Int) ^ (8 * w - 1)) ≤ m ∧ m < (2 : Int) ^ (8 * w - 1)
                  · rw [if_pos hr] at h
                    cases hrec : fieldsPack little fs vs with
                    | error e => rw [hrec] at h; exact absurd h (by simp [Except.map])
                    | ok r =>
                        rw [hrec] at h
                        simp only [Except.map] at h
                        injection h with h2
                        simp [← h2, fieldsSize, fieldSize, intEncode_length, ih _ _ hrec]
                  · rw [if_neg hr] at h; exact absurd h (by simp)
              | bytes b => simp only [fieldsPack] at h; exact absurd h (by simp)
              | bool b => simp only [fieldsPack] at h; exact absurd h (by simp)
      | uint w =>
          cases vals with
          | nil => simp only [fieldsPack] at h; exact absurd h (by simp)
          | cons v vs =>
              cases v with
              | int m =>
                  simp only [fieldsPack] at h
                  by_cases hr : 0 ≤ m ∧ m < (2 : Int) ^ (8 * w)
                  · rw [if_pos hr] at h
                    cases hrec : fieldsPack little fs vs with
                    | error e => rw [hrec] at h; exact absurd h (by simp [Except.map])
                    | ok r =>
                        rw [hrec] at h
                        simp only [Except.map] at h
                        injection h with h2
                        simp [← h2, fieldsSize, fieldSize, intEncode_length, ih _ _ hrec]
                  · rw [if_neg hr] at h; exact absurd h (by simp)
              | bytes b => simp only [fieldsPack] at h; exact absurd h (by simp)
              | bool b => simp only [fieldsPack] at h; exact absurd h (by simp)
      | boolf =>
          cases vals with
          | nil => simp only [fieldsPack] at h; exact absurd h (by simp)
          | cons v vs =>
              simp only [fieldsPack] at h
              cases hrec : fieldsPack little fs vs with
              | error e => rw [hrec] at h; exact absurd h (by simp [Except.map])
              | ok r =>
                  rw [hrec] at h
                  simp only [Except.map] at h
                  injection h with h2
                  cases hpt : pyTruthy v <;> rw [hpt] at h2 <;>
                    simp [← h2, fieldsSize, fieldSize, ih _ _ hrec] <;> omega
      | charf =>
          cases vals with
          | nil => simp only [fieldsPack] at h; exact absurd h (by simp)
          | cons v vs =>
              cases v with
              | bytes s =>
                  simp only [fieldsPack] at h
                  by_cases hl : s.length = 1
                  · rw [if_pos hl] at h
                    cases hrec : fieldsPack little fs vs with
                    | error e => rw [hrec] at h; exact absurd h (by simp [Except.map])
                    | ok r =>
                        rw [hrec] at h
                        simp only [Except.map] at h
                        injection h with h2
                        simp [← h2, fieldsSize, fieldSize, hl, ih _ _ hrec]
                  · rw [if_neg hl] at h; exact absurd h (by simp)
              | int m => simp only [fieldsPack] at h; exact absurd h (by simp)
              | bool b => simp only [fieldsPack] at h; exact absurd h (by simp)
      | strf n =>
          cases vals with
          | nil => simp only [fieldsPack] at h; exact absurd h (by simp)
          | cons v vs =>
              cases v with
              | bytes s =>
                  simp only [fieldsPack] at h
                  cases hrec : fieldsPack little fs vs with
                  | error e => rw [hrec] at h; exact absurd h (by simp [Except.map])
                  | ok r =>
                      rw [hrec] at h
                      simp only [Except.map] at h
                      injection h with h2
                      have hslen : (s.take n ++ List.replicate (n - s.length) 0).length = n := by
                        simp [List.length_take, List.length_replicate]
                        omega
                      simp [← h2, fieldsSize, fieldSize, ih _ _ hrec]
                      omega
              | int m => simp only [fieldsPack] at h; exact absurd h (by simp)
              | bool b => simp only [fieldsPack] at h; exact absurd h (by simp)
      | pstrf n =>
          cases vals with
          | nil => simp only [fieldsPack] at h; exact absurd h (by simp)
          | cons v vs =>
              cases v with
              | bytes s =>
                  simp only [fieldsPack] at h
                  cases hrec : fieldsPack little fs vs with
                  | error e => rw [hrec] at h; exact absurd h (by simp [Except.map])
                  | ok r =>
                      rw [hrec] at h
                      simp only [Except.map] at h
                      injection h with h2
                      have hslen : (pPack n s).length = n := by
                        unfold pPack
                        by_cases hn : n = 0
                        · simp [hn]
                        · rw [if_neg hn]
                          simp [List.length_take, List.length_replicate]
                          omega
                      simp [← h2, fieldsSize, fieldSize, hslen, ih _ _ hrec]
              | int m => simp only [fieldsPack] at h; exact absurd h (by simp)
              | bool b => simp only [fieldsPack] at h; exact absurd h (by simp)

/-- A successful struct pack consumed exactly the layout's value count. -/
theorem fieldsPack_numVals (little : Bool) :
    ∀ (fs : List SField) (vals : List PyVal) (out : List Nat),
      fieldsPack little fs vals = .ok out → vals.length = numVals fs := by
  intro fs
  induction fs with
  | nil =>
      intro vals out h
      cases vals with
      | nil => rfl
      | cons v vs => simp only [fieldsPack] at h; exact absurd h (by simp)
  | cons f fs ih =>
      intro vals out h
      cases f with
      | pad n =>
          simp only [fieldsPack] at h
          cases hrec : fieldsPack little fs vals with
          | error e => rw [hrec] at h; exact absurd h (by simp [Except.map])
          | ok r => simp [numVals, fieldVals, ih _ _ hrec] <;> omega
      | sint w =>
          cases vals with
          | nil => simp only [fieldsPack] at h; exact absurd h (by simp)
          | cons v vs =>
              cases v with
              | int m =>
                  simp only [fieldsPack] at h
                  by_cases hr : -((2 : Int) ^ (8 * w - 1)) ≤ m ∧ m < (2 : Int) ^ (8 * w - 1)
                  · rw [if_pos hr] at h
                    cases hrec : fieldsPack little fs vs with
                    | error e => rw [hrec] at h; exact absurd h (by simp [Except.map])
                    | ok r => simp [numVals, fieldVals, ih _ _ hrec] <;> omega
                  · rw [if_neg hr] at h; exact absurd h (by simp)
              | bytes b => simp only [fieldsPack] at h; exact absurd h (by simp)
              | bool b => simp only [fieldsPack] at h; exact absurd h (by simp)
      | uint w =>
          cases vals with
          | nil => simp only [fieldsPack] at h; exact absurd h (by simp)
          | cons v vs =>
              cases v with
              | int m =>
                  simp only [fieldsPack] at h
                  by_cases hr : 0 ≤ m ∧ m < (2 : Int) ^ (8 * w)
                  · rw [if_pos hr] at h
                    cases hrec : fieldsPack little fs vs with
                    | error e => rw [hrec] at h; exact absurd h (by simp [Except.map])
                    | ok r => simp [numVals, fieldVals, ih _ _ hrec] <;> omega
                  · rw [if_neg hr] at h; exact absurd h (by simp)
              | bytes b => simp only [fieldsPack] at h; exact absurd h (by simp)
              | bool b => simp only [fieldsPack] at h; exact absurd h (by simp)
      | boolf =>
          cases vals with
          | nil => simp only [fieldsPack] at h; exact absurd h (by simp)
          | cons v vs =>
              simp only [fieldsPack] at h
              cases hrec : fieldsPack little fs vs with
              | error e => rw [hrec] at h; exact absurd h (by simp [Except.map])
              | ok r => simp [numVals, fieldVals, ih _ _ hrec] <;> omega
      | charf =>
          cases vals with
          | nil => simp only [fieldsPack] at h; exact absurd h (by simp)
          | cons v vs =>
              cases v with
              | bytes s =>
                  simp only [fieldsPack] at h
                  by_cases hl : s.length = 1
                  · rw [if_pos hl] at h
                    cases hrec : fieldsPack little fs vs with
                    | error e => rw [hrec] at h; exact absurd h (by simp [Except.map])
                    | ok r => simp [numVals, fieldVals, ih _ _ hrec] <;> omega
                  · rw [if_neg hl] at h; exact absurd h (by simp)
              | int m => simp only [fieldsPack] at h; exact absurd h (by simp)
              | bool b => simp only [fieldsPack] at h; exact absurd h (by simp)
      | strf n =>
          cases vals with
          | nil => simp only [fieldsPack] at h; exact absurd h (by simp)
          | cons v vs =>
              cases v with
              | bytes s =>
                  simp only [fieldsPack] at h
                  cases hrec : fieldsPack little fs vs with
                  | error e => rw [hrec] at h; exact absurd h (by simp [Except.map])
                  | ok r => simp [numVals, fieldVals, ih _ _ hrec] <;> omega
              | int m => simp only [fieldsPack] at h; exact absurd h (by simp)
              | bool b => simp only [fieldsPack] at h; exact absurd h (by simp)
      | pstrf n =>
          cases vals with
          | nil => simp only [fieldsPack] at h; exact absurd h (by simp)
          | cons v vs =>
              cases v with
              | bytes s =>
                  simp only [fieldsPack] at h
                  cases hrec : fieldsPack little fs vs with
                  | error e => rw [hrec] at h; exact absurd h (by simp [Except.map])
                  | ok r => simp [numVals, fieldVals, ih _ _ hrec] <;> omega
              | int m => simp only [fieldsPack] at h; exact absurd h (by simp)
              | bool b => simp only [fieldsPack] at h; exact absurd h (by simp)

/-- Unpacking what a struct pack produced recovers the packed values, for
layouts without fixed-size string codes, with positive integer widths and
with an actual boolean in every `?` slot. -/
theorem fieldsPack_unpack (little : Bool) :
    ∀ (fs : List SField) (vals : List PyVal) (out : List Nat),
      noSP fs = true → posW fs = true → boolsMatch fs vals = true →
      fieldsPack little fs vals = .ok out → fieldsUnpack little fs out = vals := by
  intro fs
  induction fs with
  | nil =>
      intro vals out _ _ _ h
      cases vals with
      | nil => rfl
      | cons v vs => simp only [fieldsPack] at h; exact absurd h (by simp)
  | cons f fs ih =>
      intro vals out hsp hpw hbm h
      have hsp2 : noSP fs = true := by
        simp only [noSP, List.all_cons, Bool.and_eq_true] at hsp
        exact hsp.2
      have hpw2 : posW fs = true := by
        simp only [posW, List.all_cons, Bool.and_eq_true] at hpw
        exact hpw.2
      cases f with
      | pad n =>
          have hbm2 : boolsMatch fs vals = true := by simpa [boolsMatch] using hbm
          simp only [fieldsPack] at h
          cases hrec : fieldsPack little fs vals with
          | error e => rw [hrec] at h; exact absurd h (by simp [Except.map])
          | ok r =>
              rw [hrec] at h
              simp only [Except.map] at h
              injection h with h2
              subst h2
              have hdrop : (List.replicate n (0 : Nat) ++ r).drop n = r :=
                List.drop_left' (List.length_replicate n 0)
              simp only [fieldsUnpack, fieldOut, fieldSize, hdrop, List.nil_append]
              exact ih _ _ hsp2 hpw2 hbm2 hrec
      | sint w =>
          have hw : 0 < w := by
            simp only [posW, List.all_cons, Bool.and_eq_true] at hpw
            exact of_decide_eq_true hpw.1
          cases vals with
          | nil => simp only [fieldsPack] at h; exact absurd h (by simp)
          | cons v vs =>
              have hbm2 : boolsMatch fs vs = true := by simpa [boolsMatch] using hbm
              cases v with
              | int m =>
                  simp only [fieldsPack] at h
                  by_cases hr : -((2 : Int) ^ (8 * w - 1)) ≤ m ∧ m < (2 : Int) ^ (8 * w - 1)
                  · rw [if_pos hr] at h
                    cases hrec : fieldsPack little fs vs with
                    | error e => rw [hrec] at h; exact absurd h (by simp [Except.map])
                    | ok r =>
                        rw [hrec] at h
                        simp only [Except.map] at h
                        injection h with h2
                        subst h2
                        have htake : (intEncode little w m ++ r).take w = intEncode little w m :=
                          List.take_left' (intEncode_length little w m)
                        have hdrop : (intEncode little w m ++ r).drop w = r :=
                          List.drop_left' (intEncode_length little w m)
                        simp only [fieldsUnpack, fieldOut, fieldSize, htake, hdrop]
                        rw [sint_roundtrip little w m hw hr.1 hr.2]
                        simp [ih _ _ hsp2 hpw2 hbm2 hrec]
                  · rw [if_neg hr] at h; exact absurd h (by simp)
              | bytes b => simp only [fieldsPack] at h; exact absurd h (by simp)
              | bool b => simp only [fieldsPack] at h; exact absurd h (by simp)
      | uint w =>
          cases vals with
          | nil => simp only [fieldsPack] at h; exact absurd h (by simp)
          | cons v vs =>
              have hbm2 : boolsMatch fs vs = true := by simpa [boolsMatch] using hbm
              cases v with
              | int m =>
                  simp only [fieldsPack] at h
                  by_cases hr : 0 ≤ m ∧ m < (2 : Int) ^ (8 * w)
                  · rw [if_pos hr] at h
                    cases hrec : fieldsPack little fs vs with
                    | error e => rw [hrec] at h; exact absurd h (by simp [Except.map])
                    | ok r =>
                        rw [hrec] at h
                        simp only [Except.map] at h
                        injection h with h2
                        subst h2
                        have htake : (intEncode little w m ++ r).take w = intEncode little w m :=
                          List.take_left' (intEncode_length little w m)
                        have hdrop : (intEncode little w m ++ r).drop w = r :=
                          List.drop_left' (intEncode_length little w m)
                        simp only [fieldsUnpack, fieldOut, fieldSize, htake, hdrop]
                        rw [uint_roundtrip little w m hr.1 hr.2]
                        simp [ih _ _ hsp2 hpw2 hbm2 hrec]
                  · rw [if_neg hr] at h; exact absurd h (by simp)
              | bytes b => simp only [fieldsPack] at h; exact absurd h (by simp)
              | bool b => simp only [fieldsPack] at h; exact absurd h (by simp)
      | boolf =>
          cases vals with
          | nil => simp only [fieldsPack] at h; exact absurd h (by simp)
          | cons v vs =>
              have hbm' : v.isBool = true ∧ boolsMatch fs vs = true := by
                simpa [boolsMatch, Bool.and_eq_true] using hbm
              cases v with
              | bool b =>
                  simp only [fieldsPack] at h
                  cases hrec : fieldsPack little fs vs with
                  | error e => rw [hrec] at h; exact absurd h (by simp [Except.map])
                  | ok r =>
                      rw [hrec] at h
                      simp only [Except.map] at h
                      injection h with h2
                      subst h2
                      cases b <;>
                        simp [fieldsUnpack, fieldOut, fieldSize, pyTruthy,
                          ih _ _ hsp2 hpw2 hbm'.2 hrec]
              | int m => simp [PyVal.isBool] at hbm'
              | bytes b => simp [PyVal.isBool] at hbm'
      | charf =>
          cases vals with
          | nil => simp only [fieldsPack] at h; exact absurd h (by simp)
          | cons v vs =>
              have hbm2 : boolsMatch fs vs = true := by simpa [boolsMatch] using hbm
              cases v with
              | bytes s =>
                  simp only [fieldsPack] at h
                  by_cases hl : s.length = 1
                  · rw [if_pos hl] at h
                    cases hrec : fieldsPack little fs vs with
                    | error e => rw [hrec] at h; exact absurd h (by simp [Except.map])
                    | ok r =>
                        rw [hrec] at h
                        simp only [Except.map] at h
                        injection h with h2
                        subst h2
                        have htake : (s ++ r).take 1 = s := List.take_left' hl
                        have hdrop : (s ++ r).drop 1 = r := List.drop_left' hl
                        simp only [fieldsUnpack, fieldOut, fieldSize, htake, hdrop]
                        simp [ih _ _ hsp2 hpw2 hbm2 hrec]
                  · rw [if_neg hl] at h; exact absurd h (by simp)
              | int m => simp only [fieldsPack] at h; exact absurd h (by simp)
              | bool b => simp only [fieldsPack] at h; exact absurd h (by simp)
      | strf n => simp [noSP] at hsp
      | pstrf n => simp [noSP] at hsp

/-- Value counts add over concatenated layouts. -/
theorem numVals_append : ∀ (a b : List SField), numVals (a ++ b) = numVals a + numVals b := by
  intro a b
  induction a with
  | nil => simp [numVals]
  | cons f fs ih => simp [numVals, ih]; omega

/-- Value count of a repeated field. -/
theorem numVals_replicate (n : Nat) (f : SField) :
    numVals (List.replicate n f) = n * fieldVals f := by
  induction n with
  | zero => simp [numVals]
  | succ n ih => simp [List.replicate_succ, numVals, ih]; ring

/-- A predicate holding on a value holds on all its replicates. -/
theorem all_replicate_true {α : Type} (p : α → Bool) (n : Nat) (a : α) (h : p a = true) :
    (List.replicate n a).all p = true := by
  induction n with
  | zero => rfl
  | succ n ih => simp [List.replicate_succ, List.all_cons, h, ih]

/-- `posW` distributes over append. -/
theorem posW_append (a b : List SField) : posW (a ++ b) = (posW a && posW b) := by
  simp [posW, List.all_append]

/-- Alignment padding adds no values. -/
theorem alignPass_numVals : ∀ (fs : List SField) (off : Nat),
    numVals (alignPass off fs) = numVals fs := by
  intro fs
  induction fs with
  | nil => intro off; rfl
  | cons f fs ih =>
      intro off
      simp only [alignPass]
      by_cases hp : (fieldAlign f - off % fieldAlign f) % fieldAlign f = 0
      · rw [if_pos hp]
        simp [numVals_append, numVals, ih]
      · rw [if_neg hp]
        simp [numVals_append, numVals, fieldVals, ih]

/-- Alignment padding preserves positive widths. -/
theorem alignPass_posW : ∀ (fs : List SField) (off : Nat),
    posW fs = true → posW (alignPass off fs) = true := by
  intro fs
  induction fs with
  | nil => intro off _; rfl
  | cons f fs ih =>
      intro off hp
      have hp1 : (fun f => match f with
          | .sint w => decide (0 < w)
          | .uint w => decide (0 < w)
          | _ => true) f = true ∧ posW fs = true := by
        simpa [posW, List.all_cons, Bool.and_eq_true] using hp
      have hf : posW [f] = true := by
        simp [posW, List.all_cons, List.all_nil, hp1.1]
      have hpadf : ∀ k, posW [SField.pad k, f] = true := by
        intro k
        simp [posW, List.all_cons, List.all_nil, hp1.1]
      simp only [alignPass]
      by_cases hpad : (fieldAlign f - off % fieldAlign f) % fieldAlign f = 0
      · rw [if_pos hpad, posW_append, hf, ih _ hp1.2]
        rfl
      · rw [if_neg hpad]
        rw [show ([SField.pad ((fieldAlign f - off % fieldAlign f) % fieldAlign f), f] ++
            alignPass (off + (fieldAlign f - off % fieldAlign f) % fieldAlign f + fieldSize f) fs) =
            ([SField.pad ((fieldAlign f - off % fieldAlign f) % fieldAlign f), f] ++
            alignPass (off + (fieldAlign f - off % fieldAlign f) % fieldAlign f + fieldSize f) fs)
          from rfl, posW_append, hpadf, ih _ hp1.2]
        rfl

/-- Every field a scalar code compiles to has positive integer width. -/
theorem charFields_posW (native : Bool) (q : Option Nat) (ch : Nat) (fsc : List SField)
    (h : charFields native q ch = .ok fsc) : posW fsc = true := by
  simp only [charFields] at h
  by_cases h1 : ch = 120
  · rw [if_pos h1] at h; injection h with he; subst he; rfl
  rw [if_neg h1] at h
  by_cases h2 : ch = 99
  · rw [if_pos h2] at h; injection h with he; subst he
    exact all_replicate_true _ _ _ rfl
  rw [if_neg h2] at h
  by_cases h3 : ch = 98
  · rw [if_pos h3] at h; injection h with he; subst he
    exact all_replicate_true _ _ _ rfl
  rw [if_neg h3] at h
  by_cases h4 : ch = 66
  · rw [if_pos h4] at h; injection h with he; subst he
    exact all_replicate_true _ _ _ rfl
  rw [if_neg h4] at h
  by_cases h5 : ch = 63
  · rw [if_pos h5] at h; injection h with he; subst he
    exact all_replicate_true _ _ _ rfl
  rw [if_neg h5] at h
  by_cases h6 : ch = 104
  · rw [if_pos h6] at h; injection h with he; subst he
    exact all_replicate_true _ _ _ rfl
  rw [if_neg h6] at h
  by_cases h7 : ch = 72
  · rw [if_pos h7] at h; injection h with he; subst he
    exact all_replicate_true _ _ _ rfl
  rw [if_neg h7] at h
  by_cases h8 : ch = 105
  · rw [if_pos h8] at h; injection h with he; subst he
    exact all_replicate_true _ _ _ rfl
  rw [if_neg h8] at h
  by_cases h9 : ch = 73
  · rw [if_pos h9] at h; injection h with he; subst he
    exact all_replicate_true _ _ _ rfl
  rw [if_neg h9] at h
  by_cases h10 : ch = 108
  · rw [if_pos h10] at h; injection h with he; subst he
    exact all_replicate_true _ _ _ (by cases native <;> rfl)
  rw [if_neg h10] at h
  by_cases h11 : ch = 76
  · rw [if_pos h11] at h; injection h with he; subst he
    exact all_replicate_true _ _ _ (by cases native <;> rfl)
  rw [if_neg h11] at h
  by_cases h12 : ch = 113
  · rw [if_pos h12] at h; injection h with he; subst he
    exact all_replicate_true _ _ _ rfl
  rw [if_neg h12] at h
  by_cases h13 : ch = 81
  · rw [if_pos h13] at h; injection h with he; subst he
    exact all_replicate_true _ _ _ rfl
  rw [if_neg h13] at h
  by_cases h14 : ch = 115
  · rw [if_pos h14] at h; injection h with he; subst he; rfl
  rw [if_neg h14] at h
  by_cases h15 : ch = 112
  · rw [if_pos h15] at h; injection h with he; subst he; rfl
  rw [if_neg h15] at h
  by_cases h16 : ch = 80
  · rw [if_pos h16] at h
    cases native with
    | true =>
        rw [if_pos rfl] at h
        injection h with he; subst he
        exact all_replicate_true _ _ _ rfl
    | false => exact absurd h (by simp)
  rw [if_neg h16] at h
  exact absurd h (by simp)

/-- The value count of one scalar code's fields: exactly 1 for `p`/`s`, and
at most the repeat count for every other accepted code (`x` consumes none
although `_count` bills it). -/
theorem charFields_numVals (native : Bool) (q : Option Nat) (ch : Nat) (fsc : List SField)
    (h : charFields native q ch = .ok fsc) :
    ((ch = 112 ∨ ch = 115) → numVals fsc = 1) ∧
    (¬(ch = 112 ∨ ch = 115) → numVals fsc ≤ q.getD 1) := by
  simp only [charFields] at h
  by_cases h1 : ch = 120
  · rw [if_pos h1] at h; injection h with he; subst he
    refine ⟨fun hch => ?_, fun _ => ?_⟩
    · rcases hch with rfl | rfl <;> omega
    · simp [numVals, fieldVals]
  rw [if_neg h1] at h
  by_cases h2 : ch = 99
  · rw [if_pos h2] at h; injection h with he; subst he
    refine ⟨fun hch => ?_, fun _ => ?_⟩
    · rcases hch with rfl | rfl <;> omega
    · simp [numVals_replicate, fieldVals]
  rw [if_neg h2] at h
  by_cases h3 : ch = 98
  · rw [if_pos h3] at h; injection h with he; subst he
    refine ⟨fun hch => ?_, fun _ => ?_⟩
    · rcases hch with rfl | rfl <;> omega
    · simp [numVals_replicate, fieldVals]
  rw [if_neg h3] at h
  by_cases h4 : ch = 66
  · rw [if_pos h4] at h; injection h with he; subst he
    refine ⟨fun hch => ?_, fun _ => ?_⟩
    · rcases hch with rfl | rfl <;> omega
    · simp [numVals_replicate, fieldVals]
  rw [if_neg h4] at h
  by_cases h5 : ch = 63
  · rw [if_pos h5] at h; injection h with he; subst he
    refine ⟨fun hch => ?_, fun _ => ?_⟩
    · rcases hch with rfl | rfl <;> omega
    · simp [numVals_replicate, fieldVals]
  rw [if_neg h5] at h
  by_cases h6 : ch = 104
  · rw [if_pos h6] at h; injection h with he; subst he
    refine ⟨fun hch => ?_, fun _ => ?_⟩
    · rcases hch with rfl | rfl <;> omega
    · simp [numVals_replicate, fieldVals]
  rw [if_neg h6] at h
  by_cases h7 : ch = 72
  · rw [if_pos h7] at h; injection h with he; subst he
    refine ⟨fun hch => ?_, fun _ => ?_⟩
    · rcases hch with rfl | rfl <;> omega
    · simp [numVals_replicate, fieldVals]
  rw [if_neg h7] at h
  by_cases h8 : ch = 105
  · rw [if_pos h8] at h; injection h with he; subst he
    refine ⟨fun hch => ?_, fun _ => ?_⟩
    · rcases hch with rfl | rfl <;> omega
    · simp [numVals_replicate, fieldVals]
  rw [if_neg h8] at h
  by_cases h9 : ch = 73
  · rw [if_pos h9] at h; injection h with he; subst he
    refine ⟨fun hch => ?_, fun _ => ?_⟩
    · rcases hch with rfl | rfl <;> omega
    · simp [numVals_replicate, fieldVals]
  rw [if_neg h9] at h
  by_cases h10 : ch = 108
  · rw [if_pos h10] at h; injection h with he; subst he
    refine ⟨fun hch => ?_, fun _ => ?_⟩
    · rcases hch with rfl | rfl <;> omega
    · simp [numVals_replicate, fieldVals]
  rw [if_neg h10] at h
  by_cases h11 : ch = 76
  · rw [if_pos h11] at h; injection h with he; subst he
    refine ⟨fun hch => ?_, fun _ => ?_⟩
    · rcases hch with rfl | rfl <;> omega
    · simp [numVals_replicate, fieldVals]
  rw [if_neg h11] at h
  by_cases h12 : ch = 113
  · rw [if_pos h12] at h; injection h with he; subst he
    refine ⟨fun hch => ?_, fun _ => ?_⟩
    · rcases hch with rfl | rfl <;> omega
    · simp [numVals_replicate, fieldVals]
  rw [if_neg h12] at h
  by_cases h13 : ch = 81
  · rw [if_pos h13] at h; injection h with he; subst he
    refine ⟨fun hch => ?_, fun _ => ?_⟩
    · rcases hch with rfl | rfl <;> omega
    · simp [numVals_replicate, fieldVals]
  rw [if_neg h13] at h
  by_cases h14 : ch = 115
  · rw [if_pos h14] at h; injection h with he; subst he
    exact ⟨fun _ => rfl, fun hch => absurd (Or.inr h14) hch⟩
  rw [if_neg h14] at h
  by_cases h15 : ch = 112
  · rw [if_pos h15] at h; injection h with he; subst he
    exact ⟨fun _ => rfl, fun hch => absurd (Or.inl h15) hch⟩
  rw [if_neg h15] at h
  by_cases h16 : ch = 80
  · rw [if_pos h16] at h
    cases native with
    | true =>
        rw [if_pos rfl] at h
        injection h with he; subst he
        refine ⟨fun hch => ?_, fun _ => ?_⟩
        · rcases hch with rfl | rfl <;> omega
        · simp [numVals_replicate, fieldVals]
    | false => exact absurd h (by simp)
  rw [if_neg h16] at h
  exact absurd h (by simp)

/-- Every compiled struct layout has positive integer widths. -/
theorem parseFields_posW (native : Bool) :
    ∀ (s : List Nat) (q : Option Nat) (fs : List SField),
      parseFields native q s = .ok fs → posW fs = true := by
  intro s
  induction s with
  | nil =>
      intro q fs h
      cases q with
      | some v => simp [parseFields] at h
      | none =>
          simp only [parseFields, Option.isSome_none, Bool.false_eq_true, if_false] at h
          injection h with he
          subst he
          rfl
  | cons ch cs ih =>
      intro q fs h
      simp only [parseFields] at h
      by_cases hd : isDigitB ch = true
      · rw [if_pos hd] at h; exact ih _ _ h
      rw [if_neg hd] at h
      by_cases hs : isSpaceB ch = true
      · rw [if_pos hs] at h
        cases q with
        | some v => simp at h
        | none =>
            simp only [Option.isSome_none, Bool.false_eq_true, if_false] at h
            exact ih _ _ h
      rw [if_neg hs] at h
      cases hcf : charFields native q ch with
      | error e => simp only [hcf] at h; exact absurd h (by simp)
      | ok fsc =>
          simp only [hcf] at h
          cases hrest : parseFields native none cs with
          | error e => simp only [hrest] at h; exact absurd h (by simp)
          | ok rest =>
              simp only [hrest] at h
              injection h with he
              subst he
              rw [posW_append, charFields_posW native q ch fsc hcf, ih _ _ hrest]
              rfl

/-- `_count` bills at least as many values as the layout actually
produces: digits and codes advance in lock-step in the two scans, `x` is
over-billed and `s`/`p` are billed exactly one. -/
theorem countAux_ge (native : Bool) :
    ∀ (s : List Nat) (q : Option Nat) (acc : Nat) (fs : List SField) (c : Nat),
      parseFields native q s = .ok fs → countAux q acc s = .ok c →
      acc + numVals fs ≤ c := by
  intro s
  induction s with
  | nil =>
      intro q acc fs c hp hc
      cases q with
      | some v => simp [parseFields] at hp
      | none =>
          simp only [parseFields, Option.isSome_none, Bool.false_eq_true, if_false] at hp
          simp only [countAux] at hc
          injection hp with he
          subst he
          injection hc with he2
          subst he2
          simp [numVals]
  | cons ch cs ih =>
      intro q acc fs c hp hc
      simp only [parseFields] at hp
      simp only [countAux] at hc
      by_cases hd : isDigitB ch = true
      · rw [if_pos hd] at hp hc
        exact ih _ _ _ _ hp hc
      rw [if_neg hd] at hp hc
      by_cases hs : isSpaceB ch = true
      · rw [if_pos hs] at hp hc
        cases q with
        | some v => simp at hp
        | none =>
            simp only [Option.isSome_none, Bool.false_eq_true, if_false] at hp hc
            exact ih _ _ _ _ hp hc
      rw [if_neg hs] at hp hc
      cases hcf : charFields native q ch with
      | error e => simp only [hcf] at hp; exact absurd hp (by simp)
      | ok fsc =>
          simp only [hcf] at hp
          cases hrest : parseFields native none cs with
          | error e => simp only [hrest] at hp; exact absurd hp (by simp)
          | ok rest =>
              simp only [hrest] at hp
              injection hp with he
              subst he
              have hcn := charFields_numVals native q ch fsc hcf
              by_cases hps : (decide (ch = 112) || decide (ch = 115)) = true
              · rw [if_pos hps] at hc
                have hps2 : ch = 112 ∨ ch = 115 := by simpa using hps
                have h1 := hcn.1 hps2
                have hih := ih _ _ _ _ hrest hc
                rw [numVals_append, h1]
                omega
              · rw [if_neg hps] at hc
                have hps2 : ¬ (ch = 112 ∨ ch = 115) := by simpa using hps
                have h2 := hcn.2 hps2
                by_cases hbig : (decide (ch = 120) || decide (ch = 99) || decide (ch = 98) ||
                    decide (ch = 66) || decide (ch = 63) || decide (ch = 104) ||
                    decide (ch = 72) || decide (ch = 105) || decide (ch = 73) ||
                    decide (ch = 108) || decide (ch = 76) || decide (ch = 113) ||
                    decide (ch = 81) || decide (ch = 102) || decide (ch = 100) ||
                    decide (ch = 80)) = true
                · rw [if_pos hbig] at hc
                  have hih := ih _ _ _ _ hrest hc
                  rw [numVals_append]
                  omega
                · rw [if_neg hbig] at hc
                  exact absurd hc (by simp)

/-- A successfully parsed struct body does not start with a byte-order
character (those are consumed before the body is parsed). -/
theorem parseFields_head_not_order (native : Bool) (c : Nat) (cs : List Nat)
    (fs : List SField) (h : parseFields native none (c :: cs) = .ok fs) :
    c ∉ orderChars := by
  intro hc
  simp only [orderChars, List.mem_cons, List.not_mem_nil, or_false] at hc
  rcases hc with rfl | rfl | rfl | rfl | rfl <;>
    simp [parseFields, isDigitB, isSpaceB, charFields] at h

/-- The compiled layout of a segment has positive widths and produces at
most `_count`-many values. -/
theorem parseStruct_inv (native : Bool) (seg : List Nat) (fields : List SField) (cnt : Nat)
    (hps : parseStruct native seg = .ok fields) (hcf : countFmt seg = .ok cnt) :
    posW fields = true ∧ numVals fields ≤ cnt := by
  unfold parseStruct at hps
  cases hpf : parseFields native none seg with
  | error e => rw [hpf] at hps; exact absurd hps (by simp [Except.map])
  | ok fs0 =>
      rw [hpf] at hps
      simp only [Except.map] at hps
      injection hps with he
      subst he
      have hpw := parseFields_posW native seg none fs0 hpf
      have hstrip : (if seg.headD 0 ∈ orderChars then seg.drop 1 else seg) = seg := by
        cases seg with
        | nil => simp [orderChars]
        | cons c cs =>
            have hno := parseFields_head_not_order native c cs fs0 hpf
            simp [List.headD, hno]
      unfold countFmt at hcf
      rw [hstrip] at hcf
      have hge := countAux_ge native seg none 0 fs0 cnt hpf hcf
      cases native with
      | true =>
          exact ⟨alignPass_posW fs0 0 hpw, by rw [if_pos rfl, alignPass_numVals]; omega⟩
      | false =>
          exact ⟨by rw [if_neg (by simp)]; exact hpw, by rw [if_neg (by simp)]; omega⟩

/-- Every compiled segment has positive widths and at most `count` values. -/
theorem segsToPairs_inv (nat lit : Bool) :
    ∀ (segs : List (List Nat × Bool)) (ps : List SegPair),
      segsToPairs nat lit segs = .ok ps →
      ∀ p ∈ ps, posW p.fields = true ∧ numVals p.fields ≤ p.count := by
  intro segs
  induction segs with
  | nil =>
      intro ps h p hp
      simp only [segsToPairs] at h
      injection h with he
      subst he
      simp at hp
  | cons sb rest ih =>
      intro ps h p hp
      obtain ⟨seg, sep⟩ := sb
      obtain ⟨fields, cnt, ps2, hps, hcnt, hrest, heq, _⟩ := segsToPairs_ok_cons h
      subst heq
      rcases List.mem_cons.mp hp with rfl | hmem
      · exact parseStruct_inv nat seg fields cnt hps hcnt
      · exact ih ps2 hrest p hmem

/-- Every segment of a compiled `NetStruct` has positive widths and at most
`count` values. -/
theorem netStructNew_pairs_inv (fmt : List Nat) (ns : NetStruct)
    (h : netStructNew (.bytes fmt) = .ok ns) :
    ∀ p ∈ ns.pairs, posW p.fields = true ∧ numVals p.fields ≤ p.count := by
  rcases netStructNew_ok_inv h with ⟨_, hns⟩ | ⟨p0, ps0, hbp, hns⟩
  · subst hns; intro p hp; simp at hp
  · subst hns
    intro p hp
    exact segsToPairs_inv _ _ _ _ hbp p hp

/-- Decoding what `pack` produced (plus any trailing bytes) yields exactly
the packed values and the trailing bytes, for segment lists without
fixed-size string codes, with positive widths, with at most `count` values
per segment, with actual booleans in every `?` slot, and with exactly
arity-many values supplied. -/
theorem packPairs_decode :
    ∀ (pairs : List SegPair) (acc data : List PyVal) (out tail : List Nat),
      (∀ p ∈ pairs, noSP p.fields = true ∧ posW p.fields = true ∧
        numVals p.fields ≤ p.count) →
      pairsBoolsOk pairs data = true →
      data.length = totalCount pairs →
      packPairs pairs data = .ok out →
      runPairs pairs acc (out ++ tail) = .done (acc ++ data) tail := by
  intro pairs
  induction pairs with
  | nil =>
      intro acc data out tail _ _ hlen hpk
      have hd : data = [] := List.length_eq_zero.mp (by simpa [totalCount] using hlen)
      subst hd
      simp only [packPairs] at hpk
      injection hpk with he
      subst he
      simp [runPairs]
  | cons p rest ih =>
      intro acc data out tail hinv hbo hlen hpk
      obtain ⟨hsp, hpw, hnvc⟩ := hinv p (by simp)
      have hinv2 : ∀ q ∈ rest, noSP q.fields = true ∧ posW q.fields = true ∧
          numVals q.fields ≤ q.count := fun q hq => hinv q (by simp [hq])
      simp only [pairsBoolsOk, Bool.and_eq_true] at hbo
      obtain ⟨hbo1, hbo2⟩ := hbo
      have hlen1 : data.length = p.count + totalCount rest := by
        simpa [totalCount] using hlen
      simp only [packPairs] at hpk
      by_cases hstr : p.hasStr = true
      · rw [if_pos hstr] at hpk
        rw [if_pos hstr] at hbo1
        cases hget : pyGetV ((p.count : Int) - 1) data with
        | none => rw [hget] at hpk; exact absurd hpk (by simp)
        | some v =>
            cases v with
            | int m => simp only [hget] at hpk; exact absurd hpk (by simp)
            | bool bv => simp only [hget] at hpk; exact absurd hpk (by simp)
            | bytes s =>
                simp only [hget] at hpk
                simp only [hget] at hbo1
                cases hfp : fieldsPack p.little p.fields
                    (pyTake ((p.count : Int) - 1) data ++ [.int (s.length : Int)]) with
                | error e => simp only [hfp] at hpk; exact absurd hpk (by simp)
                | ok b =>
                    simp only [hfp] at hpk
                    cases hrec : packPairs rest (data.drop p.count) with
                    | error e => simp only [hrec] at hpk; exact absurd hpk (by simp)
                    | ok r =>
                        simp only [hrec] at hpk
                        injection hpk with he
                        subst he
                        have hfnv := fieldsPack_numVals p.little p.fields _ b hfp
                        have hcount : 1 ≤ p.count := by
                          have h1 : 1 ≤ numVals p.fields := by
                            rw [← hfnv]; simp
                          omega
                        have htoNat : ((p.count : Int) - 1).toNat = p.count - 1 := by omega
                        have htake : pyTake ((p.count : Int) - 1) data =
                            data.take (p.count - 1) := by
                          unfold pyTake
                          rw [if_pos (by omega : (0 : Int) ≤ (p.count : Int) - 1), htoNat]
                        have hgetv : data.get? (p.count - 1) = some (.bytes s) := by
                          unfold pyGetV at hget
                          rw [if_pos (by omega : (0 : Int) ≤ (p.count : Int) - 1),
                            htoNat] at hget
                          exact hget
                        rw [htake] at hfp
                        rw [htake] at hbo1
                        have hblen : b.length = p.size :=
                          fieldsPack_length p.little p.fields _ b hfp
                        have hvals : fieldsUnpack p.little p.fields b =
                            data.take (p.count - 1) ++ [.int (s.length : Int)] :=
                          fieldsPack_unpack p.little p.fields _ b hsp hpw hbo1 hfp
                        have hB : (b ++ s ++ r) ++ tail = b ++ (s ++ (r ++ tail)) := by
                          simp [List.append_assoc]
                        rw [hB]
                        simp only [runPairs]
                        rw [if_pos (by simp [List.length_append]; omega :
                          p.size ≤ (b ++ (s ++ (r ++ tail))).length)]
                        rw [List.take_left' hblen, List.drop_left' hblen, hvals,
                          if_pos hstr]
                        have hpop : popLast (acc ++
                            (data.take (p.count - 1) ++ [PyVal.int (s.length : Int)])) =
                            some (acc ++ data.take (p.count - 1),
                              PyVal.int (s.length : Int)) := by
                          unfold popLast
                          rw [show acc ++ (data.take (p.count - 1) ++
                              [PyVal.int (s.length : Int)]) =
                              (acc ++ data.take (p.count - 1)) ++
                              [PyVal.int (s.length : Int)] by
                            simp [List.append_assoc]]
                          rw [List.getLast?_concat, List.dropLast_concat]
                        simp only [hpop]
                        rw [if_neg (by simp [List.length_append]; omega :
                          ¬ (((s ++ (r ++ tail)).length : Int) < (s.length : Int)))]
                        have hpt : pyTake ((s.length : Nat) : Int) (s ++ (r ++ tail)) = s := by
                          unfold pyTake
                          rw [if_pos (by omega : (0 : Int) ≤ ((s.length : Nat) : Int))]
                          rw [show (((s.length : Nat) : Int)).toNat = s.length by omega]
                          exact List.take_left' rfl
                        have hpd : pyDrop ((s.length : Nat) : Int) (s ++ (r ++ tail)) =
                            r ++ tail := by
                          unfold pyDrop
                          rw [if_pos (by omega : (0 : Int) ≤ ((s.length : Nat) : Int))]
                          rw [show (((s.length : Nat) : Int)).toNat = s.length by omega]
                          exact List.drop_left' rfl
                        rw [hpt, hpd]
                        have hgetv2 : data[p.count - 1]? = some (PyVal.bytes s) := by
                          rw [← List.get?_eq_getElem?]
                          exact hgetv
                        have hsplit : (acc ++ data.take (p.count - 1)) ++ [PyVal.bytes s] =
                            acc ++ data.take p.count := by
                          rw [List.append_assoc]
                          congr 1
                          conv_rhs => rw [show p.count = (p.count - 1) + 1 by omega]
                          rw [List.take_succ, hgetv2]
                          rfl
                        rw [hsplit]
                        have hlen2 : (data.drop p.count).length = totalCount rest := by
                          simp [List.length_drop]
                          omega
                        have hrun := ih (acc ++ data.take p.count) (data.drop p.count)
                          r tail hinv2 hbo2 hlen2 hrec
                        rw [hrun]
                        rw [List.append_assoc, List.take_append_drop]
      · have hstrf : p.hasStr = false := by simpa using hstr
        rw [hstrf] at hpk
        rw [hstrf] at hbo1
        simp only [Bool.false_eq_true, if_false] at hpk
        simp only [Bool.false_eq_true, if_false] at hbo1
        cases hfp : fieldsPack p.little p.fields (data.take p.count) with
        | error e => simp only [hfp] at hpk; exact absurd hpk (by simp)
        | ok b =>
            simp only [hfp] at hpk
            cases hrec : packPairs rest (data.drop p.count) with
            | error e => simp only [hrec] at hpk; exact absurd hpk (by simp)
            | ok r =>
                simp only [hrec] at hpk
                injection hpk with he
                subst he
                have hblen : b.length = p.size :=
                  fieldsPack_length p.little p.fields _ b hfp
                have hvals : fieldsUnpack p.little p.fields b = data.take p.count :=
                  fieldsPack_unpack p.little p.fields _ b hsp hpw hbo1 hfp
                have hB : (b ++ r) ++ tail = b ++ (r ++ tail) := by
                  simp [List.append_assoc]
                rw [hB]
                simp only [runPairs]
                rw [if_pos (by simp [List.length_append]; omega :
                  p.size ≤ (b ++ (r ++ tail)).length)]
                rw [List.take_left' hblen, List.drop_left' hblen, hvals, hstrf]
                simp only [Bool.false_eq_true, if_false]
                have hlen2 : (data.drop p.count).length = totalCount rest := by
                  simp [List.length_drop]
                  omega
                have hrun := ih (acc ++ data.take p.count) (data.drop p.count)
                  r tail hinv2 hbo2 hlen2 hrec
                rw [hrun]
                rw [List.append_assoc, List.take_append_drop]

/-- Claim C2 (amended): for every compiled format whose segments contain no
fixed-size string codes (`s`/`p`), and every value sequence of exactly the
format's total value count whose `?` slots (if any) receive actual booleans
and on which pack succeeds, one-shot unpacking the packed bytes returns
exactly the original values.  (A non-boolean in a `?` slot packs through
truthiness and decodes to a canonical boolean, so the round-trip needs the
boolean hypothesis; the counterexample packs 5 and gets back True.) -/
theorem c2_amended (fmt : List Nat) (ns : NetStruct) (data : List PyVal) (out : List Nat)
    (hok : netStructNew (.bytes fmt) = .ok ns)
    (hsp : ∀ p ∈ ns.pairs, noSP p.fields = true)
    (hbools : pairsBoolsOk ns.pairs data = true)
    (hlen : data.length = totalCount ns.pairs)
    (hpk : ns.pack data = .ok out) :
    ns.unpack out = .ok data := by
  have hinv := netStructNew_pairs_inv fmt ns hok
  have hrun := packPairs_decode ns.pairs [] data out []
    (fun p hp => ⟨hsp p hp, (hinv p hp).1, (hinv p hp).2⟩) hbools hlen hpk
  have hrun2 : runPairs ns.pairs [] out = .done data [] := by simpa using hrun
  unfold NetStruct.unpack
  rw [hrun2]

/-- Witness for `c2_amended`: the `?b$h` format round-trips the values
`(True, b"MN", -4)`, exercising a boolean slot, a variable-length string
and a negative integer. -/
theorem c2_amended_witness :
    NetStruct.unpack
      ⟨[⟨false, [.boolf, .sint 1], 2, true⟩, ⟨false, [.sint 2], 1, false⟩], 4, 2⟩
      [1, 2, 77, 78, 255, 252] =
      .ok [.bool true, .bytes [77, 78], .int (-4)] :=
  c2_amended [63, 98, 36, 104] _
    [.bool true, .bytes [77, 78], .int (-4)]
    [1, 2, 77, 78, 255, 252] rfl (by decide) (by decide) rfl rfl

/-- Packed sizes add over concatenated layouts. -/
theorem fieldsSize_append : ∀ (a b : List SField),
    fieldsSize (a ++ b) = fieldsSize a + fieldsSize b := by
  intro a b
  induction a with
  | nil => simp [fieldsSize]
  | cons f fs ih => simp [fieldsSize, ih]; omega

/-- The first segment of the dollar-split is the prefix up to the first
`$` (with the split flag), or the whole remainder when no `$` occurs. -/
theorem splitSegsAux_first :
    ∀ (cs cur : List Nat),
      (∃ k, cs.findIdx? (fun c => c = 36) = some k ∧
        ∃ tl, splitSegsAux cur cs = (cur.reverse ++ cs.take k, true) :: tl) ∨
      (cs.findIdx? (fun c => c = 36) = none ∧
        splitSegsAux cur cs = [(cur.reverse ++ cs, false)]) := by
  intro cs
  induction cs with
  | nil => intro cur; right; exact ⟨rfl, by simp [splitSegsAux]⟩
  | cons c cs ih =>
      intro cur
      by_cases hc : c = 36
      · left
        subst hc
        refine ⟨0, by simp [List.findIdx?_cons], ?_⟩
        cases cs with
        | nil => exact ⟨[], by simp [splitSegsAux]⟩
        | cons d cs2 => exact ⟨splitSegsAux [] (d :: cs2), by simp [splitSegsAux]⟩
      · have hstep : splitSegsAux cur (c :: cs) = splitSegsAux (c :: cur) cs := by
          simp [splitSegsAux, hc]
        rcases ih (c :: cur) with ⟨k, hfind, tl, heq⟩ | ⟨hfind, heq⟩
        · left
          refine ⟨k + 1, ?_, tl, ?_⟩
          · simp [List.findIdx?_cons, hc, hfind]
          · rw [hstep, heq]
            simp [List.take_cons, List.append_assoc]
        · right
          constructor
          · simp [List.findIdx?_cons, hc, hfind]
          · rw [hstep, heq]
            simp [List.append_assoc]

/-- Adjacent-dollar freedom passes to the tail. -/
theorem hasDollarDollar_tail (fmt : List Nat) (h : hasDollarDollar fmt = false) :
    hasDollarDollar (fmt.drop 1) = false := by
  cases fmt with
  | nil => exact h
  | cons c cs =>
      cases cs with
      | nil => rfl
      | cons d cs2 =>
          simp only [hasDollarDollar, Bool.or_eq_false_iff] at h
          exact h.2

/-- Parsing a concatenation splits at a successfully parsed prefix (a
successful parse always ends with no pending repeat count). -/
theorem parseFields_append (native : Bool) :
    ∀ (s : List Nat) (q : Option Nat) (a : List SField),
      parseFields native q s = .ok a →
      ∀ (t : List Nat),
        parseFields native q (s ++ t) = (parseFields native none t).map (fun b => a ++ b) := by
  intro s
  induction s with
  | nil =>
      intro q a h t
      cases q with
      | some v => simp [parseFields] at h
      | none =>
          simp only [parseFields, Option.isSome_none, Bool.false_eq_true, if_false] at h
          injection h with he
          subst he
          simp only [List.nil_append]
          cases hr : parseFields native none t with
          | error e => simp [Except.map]
          | ok b => simp [Except.map]
  | cons ch cs ih =>
      intro q a h t
      simp only [parseFields] at h
      simp only [List.cons_append, parseFields]
      by_cases hd : isDigitB ch = true
      · rw [if_pos hd] at h ⊢
        exact ih _ _ h t
      rw [if_neg hd] at h ⊢
      by_cases hs : isSpaceB ch = true
      · rw [if_pos hs] at h ⊢
        cases q with
        | some v => simp at h
        | none =>
            simp only [Option.isSome_none, Bool.false_eq_true, if_false] at h ⊢
            exact ih _ _ h t
      rw [if_neg hs] at h ⊢
      cases hcf : charFields native q ch with
      | error e => simp only [hcf] at h; exact absurd h (by simp)
      | ok fsc =>
          simp only [hcf] at h ⊢
          cases hrest : parseFields native none cs with
          | error e => simp only [hrest] at h; exact absurd h (by simp)
          | ok rest =>
              simp only [hrest] at h
              injection h with he
              subst he
              simp only [List.append_eq]
              rw [ih _ _ hrest t]
              cases hr : parseFields native none t with
              | error e => simp [Except.map]
              | ok b => simp [Except.map, List.append_assoc]

/-- Without native alignment, struct compilation is plain field parsing. -/
theorem parseStruct_false_eq (seg : List Nat) (fields : List SField)
    (h : parseStruct false seg = .ok fields) :
    parseFields false none seg = .ok fields := by
  unfold parseStruct at h
  cases hpf : parseFields false none seg with
  | error e => rw [hpf] at h; exact absurd h (by simp [Except.map])
  | ok fs0 =>
      rw [hpf] at h
      simp only [Except.map, Bool.false_eq_true, if_false] at h
      exact h

/-- The concatenated segment bodies of a non-native compiled format parse
to the concatenation of the per-segment layouts. -/
theorem segsToPairs_join_parse (lit : Bool) :
    ∀ (segs : List (List Nat × Bool)) (pairs : List SegPair),
      segsToPairs false lit segs = .ok pairs →
      parseFields false none ((segs.map Prod.fst).flatten) =
        .ok ((pairs.map SegPair.fields).flatten) := by
  intro segs
  induction segs with
  | nil =>
      intro pairs h
      simp only [segsToPairs] at h
      injection h with he
      subst he
      rfl
  | cons sb rest ih =>
      intro pairs h
      obtain ⟨seg, sep⟩ := sb
      obtain ⟨fields, cnt, ps2, hps, _, hrest, heq, _⟩ := segsToPairs_ok_cons h
      subst heq
      have hpf := parseStruct_false_eq seg fields hps
      simp only [List.map_cons, List.flatten_cons]
      rw [parseFields_append false seg none fields hpf, ih ps2 hrest]
      simp [Except.map]

/-- Dropping the `$` markers from a format body recovers the concatenation
of its split segments. -/
theorem splitSegsAux_join :
    ∀ (cs cur : List Nat),
      (((splitSegsAux cur cs).map Prod.fst).flatten) = cur.reverse ++ cs.filter (fun c => c ≠ 36) := by
  intro cs
  induction cs with
  | nil => intro cur; simp [splitSegsAux]
  | cons c cs ih =>
      intro cur
      by_cases hc : c = 36
      · subst hc
        cases cs with
        | nil => simp [splitSegsAux, List.filter]
        | cons d cs2 =>
            have hstep : splitSegsAux cur (36 :: d :: cs2) =
                (cur.reverse, true) :: splitSegsAux [] (d :: cs2) := by
              simp [splitSegsAux]
            rw [hstep]
            simp only [List.map_cons, List.flatten_cons]
            rw [ih []]
            simp [List.filter]
      · have hstep : splitSegsAux cur (c :: cs) = splitSegsAux (c :: cur) cs := by
          simp [splitSegsAux, hc]
        rw [hstep, ih (c :: cur)]
        simp [List.filter, hc, List.append_assoc]

/-- The concatenated layouts of a segment list pack to the accumulated
minimum size. -/
theorem fieldsSize_flatten_pairs : ∀ (l : List SegPair),
    fieldsSize ((l.map SegPair.fields).flatten) = sumSizes l := by
  intro l
  induction l with
  | nil => rfl
  | cons p ps ih =>
      simp only [List.map_cons, List.flatten_cons, fieldsSize_append, ih]
      rfl

/-- An accepted byte format contains no adjacent `$$`. -/
theorem netStructNew_no_dd (fmt : List Nat) (ns : NetStruct)
    (h : netStructNew (.bytes fmt) = .ok ns) (hne : fmt ≠ []) :
    hasDollarDollar fmt = false := by
  by_contra hdd
  have hdd2 : hasDollarDollar fmt = true := by simpa using hdd
  have hfal : pyFalsy (PyArg.bytes fmt) = false := by
    simp [pyFalsy, List.isEmpty_iff, hne]
  have herr : netStructNew (.bytes fmt) = .error .formatError := by
    simp [netStructNew, hfal, hdd2]
  rw [herr] at h
  exact Except.noConfusion h

/-- A nonempty compiled segment list forces a nonempty format body. -/
theorem buildPairs_body_ne (nat lit : Bool) (body : List Nat) (p : SegPair)
    (ps : List SegPair) (h : buildPairs nat lit body = .ok (p :: ps)) : body ≠ [] := by
  intro hb
  subst hb
  simp [buildPairs, splitSegs, segsToPairs] at h

/-- Core of the `minimum_size` agreement: for a compiled non-native body,
measuring the `$`-free concatenation in one parse gives the summed
per-segment sizes. -/
theorem min_agree_core (lit : Bool) (body : List Nat) (p : SegPair) (ps : List SegPair)
    (hbp : buildPairs false lit body = .ok (p :: ps)) (ordc : Nat)
    (hoc : ordc ∈ orderChars) (hoc64 : ordc ≠ 64) :
    calcsize (ordc :: body.filter (fun c => c ≠ 36)) = .ok (sumSizes (p :: ps)) := by
  have hbody := buildPairs_body_ne _ _ _ _ _ hbp
  have hss : splitSegs body = splitSegsAux [] body := by
    cases body with
    | nil => exact absurd rfl hbody
    | cons a as => rfl
  unfold buildPairs at hbp
  rw [hss] at hbp
  have hjp := segsToPairs_join_parse lit (splitSegsAux [] body) (p :: ps) hbp
  rw [splitSegsAux_join body []] at hjp
  simp only [List.reverse_nil, List.nil_append] at hjp
  have hd64 : decide (ordc = 64) = false := by simp [hoc64]
  have hcz : calcsize (ordc :: body.filter (fun c => c ≠ 36)) =
      (parseStruct (decide (ordc = 64)) (body.filter (fun c => c ≠ 36))).map fieldsSize := by
    unfold calcsize stripOrder
    simp [hoc]
  rw [hcz, hd64]
  have hps : parseStruct false (body.filter (fun c => c ≠ 36)) =
      .ok (((p :: ps).map SegPair.fields).flatten) := by
    unfold parseStruct
    rw [hjp]
    simp [Except.map]
  rw [hps]
  simp [Except.map, fieldsSize_append, fieldsSize_flatten_pairs, sumSizes, SegPair.size]

/-- Module-level `minimum_size` agrees with the compiled minimum size for
every accepted non-native format. -/
theorem c10_min_agree (fmt : List Nat) (ns : NetStruct)
    (h : netStructNew (.bytes fmt) = .ok ns) (hnn : fmt.headD 0 ≠ 64) :
    minimum_size fmt = .ok ns.minsize := by
  rcases netStructNew_ok_inv h with ⟨hfmt, hns⟩ | ⟨p, ps, hbp, hns⟩
  · subst hfmt; subst hns; rfl
  · subst hns
    cases hfm : fmt with
    | nil =>
        subst hfm
        exact absurd rfl (buildPairs_body_ne _ _ _ _ _ hbp)
    | cons c cs =>
        subst hfm
        have hc64 : c ≠ 64 := by simpa using hnn
        have hc36 : c ≠ 36 ∨ c ∉ orderChars := by
          by_cases hco : c ∈ orderChars
          · left
            rcases (show c = 64 ∨ c = 61 ∨ c = 60 ∨ c = 62 ∨ c = 33 by
              simpa [orderChars] using hco) with rfl | rfl | rfl | rfl | rfl <;> decide
          · right; exact hco
        by_cases hco : c ∈ orderChars
        · have hc36v : c ≠ 36 := by
            rcases hc36 with hv | hv
            · exact hv
            · exact absurd hco hv
          have hsor : (stripOrder (c :: cs)).2.2 = cs := by simp [stripOrder, hco]
          have hson : (stripOrder (c :: cs)).1 = false := by simp [stripOrder, hco, hc64]
          rw [hsor, hson] at hbp
          have hm : minimum_size (c :: cs) =
              calcsize (c :: cs.filter (fun x => x ≠ 36)) := by
            unfold minimum_size
            simp [List.headD, hco, List.filter_cons, hc36v]
          rw [hm]
          exact min_agree_core _ cs p ps hbp c hco hc64
        · have hsor : (stripOrder (c :: cs)).2.2 = c :: cs := by simp [stripOrder, hco]
          have hson : (stripOrder (c :: cs)).1 = false := by simp [stripOrder, hco]
          rw [hsor, hson] at hbp
          have hm : minimum_size (c :: cs) =
              calcsize (33 :: (c :: cs).filter (fun x => x ≠ 36)) := by
            unfold minimum_size
            simp [List.headD, hco, List.filter_cons]
          rw [hm]
          exact min_agree_core _ (c :: cs) p ps hbp 33 (by simp [orderChars]) (by decide)

/-- Core of the `initial_size` agreement: the prefix before the first `$`
of a compiled body is the first segment, so measuring it in one parse gives
the first segment's size (in any byte order, native included). -/
theorem initial_agree_core (nat lit : Bool) (body : List Nat) (p : SegPair)
    (ps : List SegPair) (hbp : buildPairs nat lit body = .ok (p :: ps))
    (hdd : hasDollarDollar body = false) (ordc : Nat) (hoc : ordc ∈ orderChars)
    (hnat : decide (ordc = 64) = nat) :
    (match body.findIdx? (fun c => c = 36) with
     | some 0 => (Except.ok 0 : Except PyErr Nat)
     | some k =>
         if hasDollarDollar body then .error .formatError
         else calcsize (ordc :: body.take k)
     | none => calcsize (ordc :: body)) = .ok p.size := by
  have hbody := buildPairs_body_ne _ _ _ _ _ hbp
  have hss : splitSegs body = splitSegsAux [] body := by
    cases body with
    | nil => exact absurd rfl hbody
    | cons a as => rfl
  unfold buildPairs at hbp
  rw [hss] at hbp
  have hcz : ∀ X : List Nat, calcsize (ordc :: X) = (parseStruct nat X).map fieldsSize := by
    intro X
    unfold calcsize stripOrder
    simp [hoc, hnat]
  rcases splitSegsAux_first body [] with ⟨k, hfind, tl, heq⟩ | ⟨hfind, heq⟩
  · rw [heq] at hbp
    simp only [List.reverse_nil, List.nil_append] at hbp
    obtain ⟨fields, cnt, ps2, hps, _, _, heq2, hlast⟩ := segsToPairs_ok_cons hbp
    have hp : p = ⟨lit, fields, cnt, true⟩ := (List.cons.inj heq2).1
    rw [hfind]
    cases k with
    | zero =>
        have hl := hlast rfl
        simp [lastInDollarCodes] at hl
    | succ k2 =>
        show (if hasDollarDollar body then (Except.error PyErr.formatError : Except PyErr Nat)
          else calcsize (ordc :: body.take (k2 + 1))) = .ok p.size
        rw [hdd]
        simp only [Bool.false_eq_true, if_false]
        rw [hcz, hps, hp]
        simp [Except.map, SegPair.size]
  · rw [heq] at hbp
    simp only [List.reverse_nil, List.nil_append] at hbp
    obtain ⟨fields, cnt, ps2, hps, _, _, heq2, _⟩ := segsToPairs_ok_cons hbp
    have hp : p = ⟨lit, fields, cnt, false⟩ := (List.cons.inj heq2).1
    rw [hfind, hcz, hps, hp]
    simp [Except.map, SegPair.size]

/-- Module-level `initial_size` agrees with the compiled initial size for
every accepted byte format (native order included). -/
theorem c10_initial_agree (fmt : List Nat) (ns : NetStruct)
    (h : netStructNew (.bytes fmt) = .ok ns) : initial_size fmt = .ok ns.initsize := by
  rcases netStructNew_ok_inv h with ⟨hfmt, hns⟩ | ⟨p, ps, hbp, hns⟩
  · subst hfmt; subst hns; rfl
  · subst hns
    cases hfm : fmt with
    | nil =>
        subst hfm
        exact absurd rfl (buildPairs_body_ne _ _ _ _ _ hbp)
    | cons c cs =>
        subst hfm
        have hddf : hasDollarDollar (c :: cs) = false := by
          refine netStructNew_no_dd _ _ h (by simp)
        by_cases hco : c ∈ orderChars
        · have hsor : (stripOrder (c :: cs)).2.2 = cs := by simp [stripOrder, hco]
          have hson : (stripOrder (c :: cs)).1 = decide (c = 64) := by simp [stripOrder, hco]
          rw [hsor, hson] at hbp
          have hi : initial_size (c :: cs) =
              (match cs.findIdx? (fun x => x = 36) with
               | some 0 => (Except.ok 0 : Except PyErr Nat)
               | some k =>
                   if hasDollarDollar cs then .error .formatError
                   else calcsize (c :: cs.take k)
               | none => calcsize (c :: cs)) := by
            unfold initial_size
            simp [List.headD, hco]
          rw [hi]
          exact initial_agree_core _ _ cs p ps hbp
            (hasDollarDollar_tail (c :: cs) hddf) c hco rfl
        · have hsor : (stripOrder (c :: cs)).2.2 = c :: cs := by simp [stripOrder, hco]
          have hson : (stripOrder (c :: cs)).1 = false := by simp [stripOrder, hco]
          rw [hsor, hson] at hbp
          have hi : initial_size (c :: cs) =
              (match (c :: cs).findIdx? (fun x => x = 36) with
               | some 0 => (Except.ok 0 : Except PyErr Nat)
               | some k =>
                   if hasDollarDollar (c :: cs) then .error .formatError
                   else calcsize (33 :: (c :: cs).take k)
               | none => calcsize (33 :: (c :: cs))) := by
            unfold initial_size
            simp [List.headD, hco]
          rw [hi]
          exact initial_agree_core _ _ (c :: cs) p ps hbp hddf 33
            (by simp [orderChars]) (by decide)

/-- Claim C10 (amended): the module-level `initial_size` agrees with the
compiled initial size for every accepted byte format, and the module-level
`minimum_size` agrees with the compiled minimum size for every accepted
format that does not use the native `@` byte order (where alignment padding
across removed `$` boundaries can differ). -/
theorem c10_amended :
    (∀ (fmt : List Nat) (ns : NetStruct), netStructNew (.bytes fmt) = .ok ns →
        initial_size fmt = .ok ns.initsize) ∧
    (∀ (fmt : List Nat) (ns : NetStruct), netStructNew (.bytes fmt) = .ok ns →
        fmt.headD 0 ≠ 64 → minimum_size fmt = .ok ns.minsize) :=
  ⟨c10_initial_agree, c10_min_agree⟩

/-- Witness for `c10_amended` at the `ih$5b` format: initial size 6 and
minimum size 11 from both computations. -/
theorem c10_amended_witness :
    initial_size [105, 104, 36, 53, 98] = .ok 6 ∧
    minimum_size [105, 104, 36, 53, 98] = .ok 11 :=
  ⟨c10_amended.1 [105, 104, 36, 53, 98]
      ⟨[⟨false, [.sint 4, .sint 2], 2, true⟩,
        ⟨false, [.sint 1, .sint 1, .sint 1, .sint 1, .sint 1], 5, false⟩], 11, 6⟩ rfl,
   c10_amended.2 [105, 104, 36, 53, 98]
      ⟨[⟨false, [.sint 4, .sint 2], 2, true⟩,
        ⟨false, [.sint 1, .sint 1, .sint 1, .sint 1, .sint 1], 5, false⟩], 11, 6⟩ rfl
      (by decide)⟩
